import Mathlib

/-!
Verification of the module composition / dependency-ordering engine
(`DIContext`) of the awilix-modular repository.

The embedding follows the current TypeScript source (`di-context.ts`, the
version that supports controllers, query handlers, class providers and
per-module provider options).  Provider option objects are passed through
to the external container verbatim by the source and never influence
control flow, so they are not modelled.  Module definitions are finite
trees (a JS object graph with an import cycle would make the source
recurse unboundedly, as the design notes record; such inputs are not
representable here).
-/

namespace AwilixModular

instance {ε α : Type} [DecidableEq ε] [DecidableEq α] : DecidableEq (Except ε α)
  | .ok a, .ok b =>
    if h : a = b then .isTrue (by rw [h])
    else .isFalse (fun hh => h (Except.ok.inj hh))
  | .ok _, .error _ => .isFalse (fun hh => Except.noConfusion hh)
  | .error _, .ok _ => .isFalse (fun hh => Except.noConfusion hh)
  | .error a, .error b =>
    if h : a = b then .isTrue (by rw [h])
    else .isFalse (fun hh => h (Except.error.inj hh))

/-- Association-list lookup over string-keyed pairs, modelling `Map.get` /
JS object property access. -/
def alookup {β : Type} (l : List (String × β)) (k : String) : Option β :=
  match l with
  | [] => none
  | (a, b) :: rest => if a = k then some b else alookup rest k

/-- Association-list lookup over nat-keyed pairs (scope ids, constructor
ids). -/
def nlookup {β : Type} (l : List (Nat × β)) (k : Nat) : Option β :=
  match l with
  | [] => none
  | (a, b) :: rest => if a = k then some b else nlookup rest k

/-- Insert-or-overwrite for string-keyed association lists: an existing
key keeps its position and receives the new value, a new key is appended
at the tail.  This models both `Map.set` and JS object property
assignment, whose enumeration order works the same way. -/
def aupsert {β : Type} (l : List (String × β)) (k : String) (v : β) :
    List (String × β) :=
  match l with
  | [] => [(k, v)]
  | (a, b) :: rest => if a = k then (a, v) :: rest else (a, b) :: aupsert rest k v

/-- Insert-or-overwrite for nat-keyed association lists. -/
def nupsert {β : Type} (l : List (Nat × β)) (k : Nat) (v : β) :
    List (Nat × β) :=
  match l with
  | [] => [(k, v)]
  | (a, b) :: rest => if a = k then (a, v) :: rest else (a, b) :: nupsert rest k v

/-- Symbolic run-time instances produced by the external container.
Resolution is modelled symbolically: the engine under verification never
inspects resolved instances, it only moves them around. -/
inductive Value : Type where
  /-- `registration.resolve(scope)` on a raw resolver registration. -/
  | fromResolver (rid : Nat) (scope : Nat)
  /-- the instance returned by `provider.useFactory(...deps)`; the
      positional dependency values passed to the factory are recorded in
      the event trace (`Event.factoryRun`). -/
  | factoryOut (fid : Nat)
  /-- resolving an import-merged `asFunction` wrapper
      (`() => originScope.build(cls)`). -/
  | fromFn (origin : Nat) (cls : Option Nat)
  /-- resolving an `asClass` registration within a scope. -/
  | fromClass (cls : Nat) (scope : Nat)
deriving DecidableEq, Repr

/-- A module's provider specification (the tagged variant dispatched on by
`isResolver` / `isFactoryProvider` / `isClassProvider` /
`isClassConstructor`; the predicates are disjoint on these shapes and are
checked in this order by the source). -/
inductive Provider : Type where
  /-- an awilix `Resolver` handle (`"resolve" in provider`). -/
  | resolver (rid : Nat)
  /-- a factory provider (`"useFactory" in provider`): ordered `inject`
      keys plus the factory, identified symbolically by `fid`. -/
  | factory (inject : List String) (fid : Nat)
  /-- a class provider (`"useClass" in provider`). -/
  | classProvider (cls : Nat)
  /-- a bare class constructor (`typeof provider === "function"`). -/
  | classCtor (cls : Nat)
deriving DecidableEq, Repr

/-- What ends up stored in a container scope under one key. -/
inductive Registration : Type where
  /-- a resolver registered directly (`scope.register({[key]: provider})`). -/
  | resolver (rid : Nat)
  /-- `asValue(v)`. -/
  | value (v : Value)
  /-- `asFunction(() => originScope.build(cls), options)` produced by the
      export merge of an import; `cls` is the `useClass` extracted from the
      exported provider spec (undefined for non-class specs). -/
  | importedFn (origin : Nat) (cls : Option Nat)
  /-- `asClass(cls, options)`. -/
  | cls (c : Nat)
deriving DecidableEq, Repr

/-- `registration.resolve(scope)`, symbolically. -/
def resolveReg (r : Registration) (scope : Nat) : Value :=
  match r with
  | .resolver rid => .fromResolver rid scope
  | .value v => v
  | .importedFn o c => .fromFn o c
  | .cls c => .fromClass c scope

/-- The errors thrown by the engine; each constructor carries exactly the
data interpolated into the corresponding `throw new Error(...)` message. -/
inductive Err : Type where
  /-- `Module "<m>" has duplicate import of "<imported>"`. -/
  | duplicateImport (module imported : String)
  /-- `Module "<m>" has provider name conflicts with imported modules: <ks>`. -/
  | providerConflict (module : String) (conflicts : List String)
  /-- `"<dep>" does not exist in scope of <m> module` (graph build). -/
  | depNotInGraph (dep : String) (module : String)
  /-- `Provider <key> is not exist in <m>` (factory dependency lookup). -/
  | providerNotExist (key : String) (module : String)
  /-- `Circular dependency detected in module "<m>" for providers: <ks>`. -/
  | circular (module : String) (remaining : List String)
  /-- `Controller "<c>" is already registered in module "<existing>". Attempted
      to register again in module "<m>".` -/
  | duplicateController (ctor : Nat) (existingModule : String) (module : String)
  /-- artefact of the fuelled embedding of the source's unbounded
      recursion; never reached when the fuel exceeds the module tree
      depth, which every entry point of this development arranges. -/
  | recursionLimit
deriving DecidableEq, Repr

/-- Observable events of one registration pass, recorded in order. -/
inductive Event : Type where
  /-- a local provider of module `module` was registered under `key`. -/
  | regLocal (module : String) (key : String)
  /-- `provider.useFactory(...deps)` was invoked. -/
  | factoryRun (fid : Nat) (args : List Value)
  /-- `onHandler(HandlerClass, scope)` was invoked. -/
  | handlerHook (ctor : Nat) (scope : Nat)
  /-- the controller constructor was bound to the module name
      (`registeredControllers.set`). -/
  | bound (ctor : Nat) (module : String)
  /-- `onController(ControllerClass, scope)` was invoked. -/
  | controllerHook (ctor : Nat) (scope : Nat)
deriving DecidableEq, Repr

/-- A module definition: name, imports, providers, exports (key/provider
entries as enumerated by `Object.entries`), query handler constructors and
controller constructors (both identified by numeric codes). -/
inductive Mod : Type where
  | mk (name : String) (imports : List Mod)
      (providers : List (String × Provider))
      (exports : List (String × Provider))
      (queryHandlers : List Nat) (controllers : List Nat)

def Mod.name : Mod → String
  | .mk n _ _ _ _ _ => n

def Mod.imports : Mod → List Mod
  | .mk _ i _ _ _ _ => i

def Mod.providers : Mod → List (String × Provider)
  | .mk _ _ p _ _ _ => p

def Mod.exports : Mod → List (String × Provider)
  | .mk _ _ _ e _ _ => e

def Mod.queryHandlers : Mod → List Nat
  | .mk _ _ _ _ q _ => q

def Mod.controllers : Mod → List Nat
  | .mk _ _ _ _ _ c => c

mutual

/-- Depth of a module's import tree (1 for a leaf).  Used as fuel for the
fuelled embedding of the source's structurally unbounded recursion: the
recursion descends one import level per call, so `depth` steps always
suffice. -/
def Mod.depth : Mod → Nat
  | .mk _ imps _ _ _ _ => 1 + depthList imps

/-- Maximum depth over a list of modules. -/
def depthList : List Mod → Nat
  | [] => 0
  | m :: rest => max m.depth (depthList rest)

end

/-- The `DIContext` options that influence control flow: whether an
`onHandler` / `onController` callback is configured.  (The callbacks'
bodies belong to the host application; their invocations are recorded as
events.) -/
structure Ctx : Type where
  onHandler : Bool
  onController : Bool
deriving DecidableEq, Repr

/-- The mutable state of one `DIContext` instance plus the external
container's scopes, with an event trace. -/
structure St : Type where
  /-- `moduleScopes`: module name to scope id. -/
  moduleScopes : List (String × Nat)
  /-- `registeredControllers`: controller constructor to owning module. -/
  registeredControllers : List (Nat × String)
  /-- contents of every container scope, by scope id. -/
  scopes : List (Nat × List (String × Registration))
  /-- next fresh scope id. -/
  nextScope : Nat
  /-- trace of observable events, oldest first. -/
  events : List Event
deriving DecidableEq, Repr

/-- The empty initial state of a freshly constructed `DIContext`. -/
def St.init : St := ⟨[], [], [], 0, []⟩

/-- `rootContainer.createScope()` (also used for child scopes: the
engine only ever asks the container for a fresh empty scope). -/
def createScope (st : St) : Nat × St :=
  (st.nextScope,
   { st with scopes := st.scopes ++ [(st.nextScope, [])],
             nextScope := st.nextScope + 1 })

/-- `scope.register({[key]: reg})` on the scope `sid`: per-key overwrite
semantics. -/
def registerInScope (st : St) (sid : Nat) (k : String) (r : Registration) : St :=
  match nlookup st.scopes sid with
  | none => st
  | some l => { st with scopes := nupsert st.scopes sid (aupsert l k r) }

/-! ## Dependency graph construction and topological sort -/

/-- The intra-module dependency graph (source type `ProdiderDepsGraph`,
name kept verbatim): `graph` maps each provider key to the list of its
dependents, `inDegree` counts each key's declared dependencies.  Both
maps preserve insertion order, as JS `Map`s do. -/
structure ProdiderDepsGraph : Type where
  graph : List (String × List String)
  inDegree : List (String × Int)
deriving DecidableEq, Repr

/-- Source `initializeDepGraph`: every provider key starts with an empty
dependent list and in-degree 0, in declaration order. -/
def initDepGraph (providers : List (String × Provider)) : ProdiderDepsGraph :=
  providers.foldl
    (fun acc kv =>
      { graph := aupsert acc.graph kv.1 [],
        inDegree := aupsert acc.inDegree kv.1 0 })
    ⟨[], []⟩

/-- One step of `buildDepGraph`'s inner `forEach` over a factory's
`inject` list: append the depending key to the dependency's dependent
list and increment the depending key's in-degree; a dependency with no
node in the graph throws. -/
def bdgInnerStep (name : String) (key : String)
    (acc2 : Except Err ProdiderDepsGraph) (dep : String) :
    Except Err ProdiderDepsGraph :=
  match acc2 with
  | .error e => .error e
  | .ok g2 =>
    match alookup g2.graph dep with
    | none => .error (.depNotInGraph dep name)
    | some depList =>
      .ok { graph := aupsert g2.graph dep (depList ++ [key]),
            inDegree :=
              aupsert g2.inDegree key (((alookup g2.inDegree key).getD 0) + 1) }

/-- One step of `buildDepGraph`'s outer `reduce` over the provider
entries: non-factory providers (and factories with an empty `inject`) are
skipped. -/
def bdgOuterStep (name : String) (acc : Except Err ProdiderDepsGraph)
    (kv : String × Provider) : Except Err ProdiderDepsGraph :=
  match acc with
  | .error e => .error e
  | .ok g =>
    match kv.2 with
    | .factory inject _ => inject.foldl (bdgInnerStep name kv.1) (.ok g)
    | _ => .ok g

/-- Source `buildDepGraph`: for each factory provider and each of its
`inject` keys, append the provider to the dependency's dependent list and
increment the provider's in-degree; an `inject` key with no node in the
graph throws. -/
def buildDepGraph (name : String) (providers : List (String × Provider))
    (depsGraph : ProdiderDepsGraph) : Except Err ProdiderDepsGraph :=
  providers.foldl (bdgOuterStep name) (.ok depsGraph)

/-- Source `initializeQueue`: the keys of in-degree 0 in map insertion
order (= declaration order). -/
def initQueue (inDegree : List (String × Int)) : List String :=
  (inDegree.filter (fun kv => decide (kv.2 = 0))).map (·.1)

/-- Source `sortProviderKeysTopologically`.  The source recurses on the
shrinking-and-growing queue with no structural measure, so the embedding
carries explicit fuel; every caller passes fuel exceeding the total
number of queue insertions the run can perform, so the fuel-exhausted
branch is unreachable.  Note the source's `if (!current) return result`
also stops on an empty-string key, which this match mirrors. -/
def sortProviderKeysTopologically (graph : List (String × List String)) :
    Nat → List (String × Int) → List String → List String → List String
  | 0, _, _, result => result
  | fuel + 1, inDegree, queue, result =>
    match queue with
    | [] => result
    | current :: restQueue =>
      if current = "" then result
      else
        let deps := (alookup graph current).getD []
        let inDegree2 :=
          deps.foldl
            (fun acc curr => aupsert acc curr (((alookup acc curr).getD 0) - 1))
            inDegree
        sortProviderKeysTopologically graph fuel inDegree2
          (restQueue ++
            deps.filter (fun dep => decide (((alookup inDegree2 dep).getD 0) = 0)))
          (result ++ [current])

/-- Source `ensureNoCyclicDependencies`: if the sorted result's length
differs from the provider count, throw, listing the provider keys absent
from the result. -/
def ensureNoCyclicDependencies (name : String)
    (providers : List (String × Provider)) (sortedKeys : List String) :
    Except Err Unit :=
  let providerKeys := providers.map (·.1)
  if sortedKeys.length ≠ providerKeys.length then
    .error (.circular name (providerKeys.filter (fun k => decide (k ∉ sortedKeys))))
  else
    .ok ()

/-- Total number of `inject` occurrences across a module's factory
providers — an upper bound on the number of queue insertions the sort can
perform beyond the initial queue. -/
def totalInject (providers : List (String × Provider)) : Nat :=
  providers.foldl
    (fun n kv => match kv.2 with | .factory inj _ => n + inj.length | _ => n) 0

/-- Fuel passed to the sort: strictly more than any possible number of
recursion steps (each step pops one queue element; at most
`providers.length` initial elements plus one insertion per inject
occurrence ever enter the queue). -/
def sortFuel (providers : List (String × Provider)) : Nat :=
  providers.length + totalInject providers + 1

/-- The dependency graph of a module's providers, as built by the source
pipeline (`buildDepGraph` over `initializeDepGraph`). -/
def depsGraphOf (name : String) (providers : List (String × Provider)) :
    Except Err ProdiderDepsGraph :=
  buildDepGraph name providers (initDepGraph providers)

/-- The sorted key list the source computes before its cycle check. -/
def sortedKeysOf (name : String) (providers : List (String × Provider)) :
    Except Err (List String) :=
  (depsGraphOf name providers).map
    (fun g =>
      sortProviderKeysTopologically g.graph (sortFuel providers) g.inDegree
        (initQueue g.inDegree) [])

/-- Source `sortProvidersByDependencies`: build the graph, seed the
queue, sort, check for cycles, and return the providers re-keyed in
sorted order (the final `reduce` rebuilds a provider object, skipping
sorted keys with no provider entry). -/
def sortProvidersByDependencies (name : String)
    (providers : List (String × Provider)) :
    Except Err (List (String × Provider)) :=
  match sortedKeysOf name providers with
  | .error e => .error e
  | .ok sortedKeys =>
    match ensureNoCyclicDependencies name providers sortedKeys with
    | .error e => .error e
    | .ok _ =>
      .ok (sortedKeys.foldl
        (fun acc key =>
          match alookup providers key with
          | some provider => aupsert acc key provider
          | none => acc)
        [])

/-! ## Validation, import merging and the recursive registrar -/

/-- Helper for `ensureImportedModulesUniqueness`: walk the imports with
the set of names seen so far. -/
def ensureImportsUniqueAux (mname : String) :
    List Mod → List String → Except Err Unit
  | [], _ => .ok ()
  | imported :: rest, seen =>
    if imported.name ∈ seen then .error (.duplicateImport mname imported.name)
    else ensureImportsUniqueAux mname rest (seen ++ [imported.name])

/-- Source `ensureImportedModulesUniqueness`: a module's direct imports
must have pairwise distinct names; the first repeat throws. -/
def ensureImportedModulesUniqueness (m : Mod) : Except Err Unit :=
  ensureImportsUniqueAux m.name m.imports []

/-- Source `ensureNoProviderNameConflicts`: no local provider key may
equal any export key of any direct import; all colliding occurrences are
reported together. -/
def ensureNoProviderNameConflicts (m : Mod) : Except Err Unit :=
  let moduleProviderKeys := m.providers.map (·.1)
  let importedProviderKeys := (m.imports.map (fun imp => imp.exports.map (·.1))).flatten
  let conflicts := importedProviderKeys.filter (fun k => decide (k ∈ moduleProviderKeys))
  if conflicts.length > 0 then .error (.providerConflict m.name conflicts)
  else .ok ()

/-- One element of the source's `resolvedExportedFromImports` flat map:
an export key, the imported module's (already registered) scope, and the
`useClass` destructured from the exported provider spec. -/
structure ImportEntry : Type where
  key : String
  scope : Nat
  useClass : Option Nat
deriving DecidableEq, Repr

/-- The `useClass` the source destructures from an exported provider
spec: the constructor itself when the spec is a bare class constructor,
its `useClass` field when it is a class provider, and `undefined`
otherwise (resolver and factory specs have no `useClass` property). -/
def extractUseClass : Provider → Option Nat
  | .classCtor c => some c
  | .classProvider c => some c
  | _ => none

/-- The entries one import contributes to the merge: one per
`Object.entries(importedModule.exports)` element, in order. -/
def mkImportEntries (imp : Mod) (importedScope : Nat) : List ImportEntry :=
  imp.exports.map (fun kv => ⟨kv.1, importedScope, extractUseClass kv.2⟩)

/-- The source's final `reduce` over the flat-mapped entries: build one
registration object, later entries for the same key overwriting earlier
ones; each registration is
`asFunction(() => curr.scope.build(curr.provider), curr.options)`. -/
def mergeImportEntries (entries : List ImportEntry) :
    List (String × Registration) :=
  entries.foldl (fun acc e => aupsert acc e.key (.importedFn e.scope e.useClass)) []

/-- `scope.register(pairs)` on scope `sid`: register every key of the
mapping, overwriting per key. -/
def registerManyInScope (st : St) (sid : Nat)
    (l : List (String × Registration)) : St :=
  match nlookup st.scopes sid with
  | none => st
  | some contents =>
    { st with scopes :=
        nupsert st.scopes sid (l.foldl (fun acc kv => aupsert acc kv.1 kv.2) contents) }

/-- Resolve a factory's `inject` keys against the live scope contents
(`scope.registrations[key].resolve(scope)`); a missing key throws. -/
def resolveFactoryDeps (contents : List (String × Registration)) (sid : Nat)
    (mname : String) : List String → Except Err (List Value)
  | [] => .ok []
  | k :: rest =>
    match alookup contents k with
    | none => .error (.providerNotExist k mname)
    | some reg =>
      match resolveFactoryDeps contents sid mname rest with
      | .error e => .error e
      | .ok vs => .ok (resolveReg reg sid :: vs)

/-- The `forEach` over the sorted providers in
`registerProvidersWithImports` step 6: register each local provider into
the scope, dispatching on its shape; factory providers resolve their
dependencies first and register the factory's result as a value. -/
def registerSorted (mname : String) (sid : Nat) :
    List (String × Provider) → St → St × Except Err Unit
  | [], st => (st, .ok ())
  | (key, provider) :: rest, st =>
    match provider with
    | .resolver rid =>
      let st := registerInScope st sid key (.resolver rid)
      let st := { st with events := st.events ++ [.regLocal mname key] }
      registerSorted mname sid rest st
    | .factory inject fid =>
      let contents := (nlookup st.scopes sid).getD []
      match resolveFactoryDeps contents sid mname inject with
      | .error e => (st, .error e)
      | .ok deps =>
        let st := { st with events := st.events ++ [.factoryRun fid deps] }
        let st := registerInScope st sid key (.value (.factoryOut fid))
        let st := { st with events := st.events ++ [.regLocal mname key] }
        registerSorted mname sid rest st
    | .classProvider c =>
      let st := registerInScope st sid key (.cls c)
      let st := { st with events := st.events ++ [.regLocal mname key] }
      registerSorted mname sid rest st
    | .classCtor c =>
      let st := registerInScope st sid key (.cls c)
      let st := { st with events := st.events ++ [.regLocal mname key] }
      registerSorted mname sid rest st

/-- Source `processQueryHandlers`: no-op unless an `onHandler` callback
is configured and the module declares handlers; otherwise invoke the
callback once per declared handler, in order. -/
def processQueryHandlers (ctx : Ctx) (m : Mod) (scope : Nat) (st : St) : St :=
  if ctx.onHandler && !m.queryHandlers.isEmpty then
    { st with events := st.events ++ m.queryHandlers.map (fun h => .handlerHook h scope) }
  else st

/-- The loop body of `processControllers`: an already bound constructor
throws, naming the owning and the current module; otherwise the
constructor is bound to the current module name and only then is the
`onController` callback invoked. -/
def processControllersLoop (mname : String) (diScope : Nat) :
    List Nat → St → St × Except Err Unit
  | [], st => (st, .ok ())
  | c :: rest, st =>
    match nlookup st.registeredControllers c with
    | some existingModule => (st, .error (.duplicateController c existingModule mname))
    | none =>
      let st := { st with
        registeredControllers := st.registeredControllers ++ [(c, mname)],
        events := st.events ++ [Event.bound c mname] }
      let st := { st with events := st.events ++ [Event.controllerHook c diScope] }
      processControllersLoop mname diScope rest st

/-- Source `processControllers`: no-op unless an `onController` callback
is configured and the module declares controllers. -/
def processControllers (ctx : Ctx) (m : Mod) (diScope : Nat) (st : St) :
    St × Except Err Unit :=
  if ctx.onController && !m.controllers.isEmpty then
    processControllersLoop m.name diScope m.controllers st
  else (st, .ok ())

/-- Source `registerProvidersWithImports`, the recursive core.  The
source recurses along the module import tree with no structural measure
(memoization alone stops revisits), so the embedding carries fuel; every
entry point passes `sizeOf` of the module, which strictly exceeds the
module's import tree depth, making the fuel-exhausted branch unreachable.  A
thrown error is returned alongside the state as mutated so far, matching
JS exception semantics. -/
def registerMod (ctx : Ctx) (fuel : Nat) (m : Mod) (targetScope : Option Nat)
    (st : St) : St × Except Err Nat :=
  match fuel with
  | 0 =>
    match alookup st.moduleScopes m.name with
    | some existingScope => (st, .ok existingScope)
    | none => (st, .error .recursionLimit)
  | fuel + 1 =>
    match alookup st.moduleScopes m.name with
    | some existingScope => (st, .ok existingScope)
    | none =>
        match ensureImportedModulesUniqueness m with
        | .error e => (st, .error e)
        | .ok _ =>
          match ensureNoProviderNameConflicts m with
          | .error e => (st, .error e)
          | .ok _ =>
            let p := match targetScope with
              | some t => (t, st)
              | none => createScope st
            let scope := p.1
            let st := p.2
            match m.imports.foldl
                (fun (acc : St × Except Err (List ImportEntry)) imp =>
                  match acc with
                  | (st, .error e) => (st, Except.error e)
                  | (st, .ok entries) =>
                    match registerMod ctx fuel imp none st with
                    | (st, .error e) => (st, Except.error e)
                    | (st, .ok importedScope) =>
                      (st, Except.ok (entries ++ mkImportEntries imp importedScope)))
                (st, Except.ok []) with
            | (st, .error e) => (st, .error e)
            | (st, .ok entries) =>
              let st := registerManyInScope st scope (mergeImportEntries entries)
              match sortProvidersByDependencies m.name m.providers with
              | .error e => (st, .error e)
              | .ok sorted =>
                match registerSorted m.name scope sorted st with
                | (st, .error e) => (st, .error e)
                | (st, .ok _) =>
                  let st := { st with moduleScopes := aupsert st.moduleScopes m.name scope }
                  let st := processQueryHandlers ctx m scope st
                  match processControllers ctx m scope st with
                  | (st, .error e) => (st, .error e)
                  | (st, .ok _) => (st, .ok scope)

/-- The fold step of the imports flat map inside `registerMod`, exposed
for reasoning: recursively register the import, then append its export
entries. -/
def importsStep (ctx : Ctx) (fuel : Nat)
    (acc : St × Except Err (List ImportEntry)) (imp : Mod) :
    St × Except Err (List ImportEntry) :=
  match acc with
  | (st, .error e) => (st, .error e)
  | (st, .ok entries) =>
    match registerMod ctx fuel imp none st with
    | (st, .error e) => (st, .error e)
    | (st, .ok importedScope) =>
      (st, .ok (entries ++ mkImportEntries imp importedScope))

/-- One element of `registerModules`' map: create a fresh child scope,
register the module into it, and return the `{scope, name}` pair built
from the *fresh* scope (the scope returned by the recursive registration
is discarded). -/
def registerOne (ctx : Ctx) (m : Mod) (st : St) : St × Except Err (Nat × String) :=
  let p := createScope st
  match registerMod ctx m.depth m (some p.1) p.2 with
  | (st, .error e) => (st, .error e)
  | (st, .ok _) => (st, .ok (p.1, m.name))

/-- Source `registerModules`: map `registerOne` over the list, an
exception aborting the rest. -/
def registerModules (ctx : Ctx) : List Mod → St → St × Except Err (List (Nat × String))
  | [], st => (st, .ok [])
  | m :: rest, st =>
    match registerOne ctx m st with
    | (st, .error e) => (st, .error e)
    | (st, .ok pair) =>
      match registerModules ctx rest st with
      | (st, .error e) => (st, .error e)
      | (st, .ok pairs) => (st, .ok (pair :: pairs))

/-! ## Basic lemmas about the association-list operations -/

theorem alookup_aupsert_self {β : Type} (l : List (String × β)) (k : String) (v : β) :
    alookup (aupsert l k v) k = some v := by
  induction l with
  | nil => simp [aupsert, alookup]
  | cons hd tl ih =>
    by_cases h : hd.1 = k
    · simp [aupsert, alookup, h]
    · simpa [aupsert, alookup, h] using ih

theorem alookup_aupsert_ne {β : Type} (l : List (String × β)) (k k' : String) (v : β)
    (h : k' ≠ k) : alookup (aupsert l k v) k' = alookup l k' := by
  have h' : k ≠ k' := Ne.symm h
  induction l with
  | nil => simp [aupsert, alookup, h']
  | cons hd tl ih =>
    by_cases hh : hd.1 = k
    · simp only [aupsert, if_pos hh, alookup]
      have hne : hd.1 ≠ k' := by rw [hh]; exact h'
      rw [if_neg hne, if_neg hne]
    · simp only [aupsert, if_neg hh, alookup]
      by_cases hk' : hd.1 = k'
      · rw [if_pos hk', if_pos hk']
      · rw [if_neg hk', if_neg hk', ih]

theorem alookup_eq_none {β : Type} (l : List (String × β)) (k : String) :
    alookup l k = none ↔ k ∉ l.map Prod.fst := by
  induction l with
  | nil => simp [alookup]
  | cons hd tl ih =>
    by_cases h : hd.1 = k
    · subst h
      simp [alookup]
    · have h2 : ¬k = hd.1 := fun hh => h hh.symm
      simp only [alookup, if_neg h, List.map_cons, List.mem_cons]
      rw [ih]
      simp [h2]

theorem alookup_isSome {β : Type} (l : List (String × β)) (k : String) :
    (∃ v, alookup l k = some v) ↔ k ∈ l.map Prod.fst := by
  constructor
  · rintro ⟨v, hv⟩
    by_contra h
    rw [← alookup_eq_none l k] at h
    rw [hv] at h
    exact Option.noConfusion h
  · intro h
    cases hcase : alookup l k with
    | none => exact absurd h ((alookup_eq_none l k).mp hcase)
    | some v => exact ⟨v, rfl⟩

theorem alookup_mem {β : Type} {l : List (String × β)} {k : String} {v : β}
    (h : alookup l k = some v) : (k, v) ∈ l := by
  induction l with
  | nil => simp [alookup] at h
  | cons hd tl ih =>
    by_cases hh : hd.1 = k
    · simp only [alookup, if_pos hh] at h
      have hv := Option.some.inj h
      subst hh
      subst hv
      rw [Prod.mk.eta]
      exact List.mem_cons_self hd tl
    · simp only [alookup, if_neg hh] at h
      exact List.mem_cons_of_mem _ (ih h)

theorem alookup_of_mem_nodup {β : Type} {l : List (String × β)} {k : String} {v : β}
    (hnd : (l.map Prod.fst).Nodup) (h : (k, v) ∈ l) : alookup l k = some v := by
  induction l with
  | nil => simp at h
  | cons hd tl ih =>
    simp only [List.map_cons, List.nodup_cons] at hnd
    rcases List.mem_cons.mp h with h | h
    · subst h
      simp [alookup]
    · have hk : hd.1 ≠ k := by
        intro hh
        exact hnd.1 (hh ▸ List.mem_map.mpr ⟨(k, v), h, rfl⟩)
      simp [alookup, hk, ih hnd.2 h]

theorem aupsert_map_fst_mem {β : Type} (l : List (String × β)) (k : String) (v : β)
    (x : String) : x ∈ (aupsert l k v).map Prod.fst ↔ x ∈ l.map Prod.fst ∨ x = k := by
  induction l with
  | nil => simp [aupsert, eq_comm]
  | cons hd tl ih =>
    by_cases h : hd.1 = k
    · subst h
      simp only [aupsert, if_true]
      simp only [List.map_cons, List.mem_cons]
      tauto
    · simp [aupsert, h, ih, or_assoc]

theorem nlookup_nupsert_self {β : Type} (l : List (Nat × β)) (k : Nat) (v : β) :
    nlookup (nupsert l k v) k = some v := by
  induction l with
  | nil => simp [nupsert, nlookup]
  | cons hd tl ih =>
    by_cases h : hd.1 = k
    · simp [nupsert, nlookup, h]
    · simp [nupsert, if_neg h, nlookup, ih]

theorem nlookup_nupsert_ne {β : Type} (l : List (Nat × β)) (k k' : Nat) (v : β)
    (h : k' ≠ k) : nlookup (nupsert l k v) k' = nlookup l k' := by
  have h' : k ≠ k' := Ne.symm h
  induction l with
  | nil => simp [nupsert, nlookup, h']
  | cons hd tl ih =>
    by_cases hh : hd.1 = k
    · simp only [nupsert, if_pos hh, nlookup]
      have hne : hd.1 ≠ k' := by rw [hh]; exact h'
      rw [if_neg hne, if_neg hne]
    · simp only [nupsert, if_neg hh, nlookup]
      by_cases hk' : hd.1 = k'
      · rw [if_pos hk', if_pos hk']
      · rw [if_neg hk', if_neg hk', ih]

/-- `a` occurs strictly before `b` in `l`. -/
def Before (l : List String) (a b : String) : Prop :=
  ∃ i j : Nat, i < j ∧ l[i]? = some a ∧ l[j]? = some b

theorem Before.append_right {l l' : List String} {a b : String}
    (h : Before l a b) : Before (l ++ l') a b := by
  obtain ⟨i, j, hij, ha, hb⟩ := h
  have hi : i < l.length := by
    by_contra hc
    rw [List.getElem?_eq_none (Nat.le_of_not_lt hc)] at ha
    exact Option.noConfusion ha
  have hj : j < l.length := by
    by_contra hc
    rw [List.getElem?_eq_none (Nat.le_of_not_lt hc)] at hb
    exact Option.noConfusion hb
  exact ⟨i, j, hij, by rw [List.getElem?_append_left hi]; exact ha,
    by rw [List.getElem?_append_left hj]; exact hb⟩

theorem Before.mem_concat {l : List String} {a c : String} (h : a ∈ l) :
    Before (l ++ [c]) a c := by
  obtain ⟨i, hi, hv⟩ := List.mem_iff_getElem.mp h
  refine ⟨i, l.length, hi, ?_, ?_⟩
  · rw [List.getElem?_append_left hi, List.getElem?_eq_getElem hi, hv]
  · rw [List.getElem?_append_right (Nat.le_refl _)]
    simp

/-- In a duplicate-free list, anything `Before` an element `b` lies in the
part of the list preceding `b`'s occurrence. -/
theorem Before.mem_left_of_split {l l1 l2 : List String} {a b : String}
    (hnd : l.Nodup) (h : Before l a b) (hsplit : l = l1 ++ b :: l2) : a ∈ l1 := by
  obtain ⟨i, j, hij, ha, hb⟩ := h
  have hi : i < l.length := by
    by_contra hc
    rw [List.getElem?_eq_none (Nat.le_of_not_lt hc)] at ha
    exact Option.noConfusion ha
  have hb' : l[l1.length]? = some b := by
    rw [hsplit, List.getElem?_append_right (Nat.le_refl _)]
    simp
  have hjl : j = l1.length := by
    have hjlen : j < l.length := by
      by_contra hc
      rw [List.getElem?_eq_none (Nat.le_of_not_lt hc)] at hb
      exact Option.noConfusion hb
    exact List.getElem?_inj hjlen hnd (by rw [hb, hb'])
  subst hjl
  have hi1 : i < l1.length := Nat.lt_of_lt_of_le hij (Nat.le_refl _)
  rw [hsplit, List.getElem?_append_left hi1] at ha
  exact List.getElem?_mem ha

/-! ## Concrete example modules used by the claim theorems -/

/-- A module with one exported provider, used to exercise memoization. -/
def memoX : Mod := .mk "X" [] [("s", .resolver 5)] [("s", .resolver 5)] [] []

/-- Diamond: `diaX` is imported by both `diaA` and `diaB`, which `diaM`
then imports. -/
def diaX : Mod := .mk "X" [] [("xs", .classCtor 3)] [("xs", .classCtor 3)] [] []

def diaA : Mod := .mk "A" [diaX] [("as", .resolver 1)] [("as", .resolver 1)] [] []

def diaB : Mod := .mk "B" [diaX] [("bs", .resolver 2)] [("bs", .resolver 2)] [] []

def diaM : Mod := .mk "M" [diaA, diaB] [] [] [] []

/-- An acyclic module whose factory injects the same key twice. -/
def dupM : Mod := .mk "MDup" [] [("a", .resolver 1), ("b", .factory ["a", "a"] 10)] [] [] []

/-- A module whose sole provider key is the empty string. -/
def emptyM : Mod := .mk "ME" [] [("", .resolver 1)] [] [] []

/-- Two mutually injecting providers. -/
def cycM : Mod := .mk "MCyc" [] [("a", .factory ["b"] 1), ("b", .factory ["a"] 2)] [] [] []

/-- The ordering example: `a` (no deps), `b` (injects `a`), `c` (injects
`b`, `a`). -/
def ordM : Mod :=
  .mk "Ord" [] [("a", .resolver 1), ("b", .factory ["a"] 10), ("c", .factory ["b", "a"] 11)] [] [] []

/-- `badM` imports `memoX` (which exports `"s"`) and declares a factory
injecting the imported key `"s"`, which is not a local provider. -/
def badM : Mod := .mk "MBad" [memoX] [("f", .factory ["s"] 4)] [] [] []

/-- Two modules declaring the same controller constructor. -/
def ctlA : Mod := .mk "CtlA" [] [] [] [] [5]

def ctlB : Mod := .mk "CtlB" [] [] [] [] [5]

/-- One module listing the same controller constructor twice. -/
def ctlTwice : Mod := .mk "M2" [] [] [] [] [7, 7]

/-- Sibling imports exporting the same key with different payloads. -/
def sibA : Mod := .mk "SibA" [] [("k", .resolver 1)] [("k", .resolver 1)] [] []

def sibB : Mod := .mk "SibB" [] [("k", .resolver 2)] [("k", .resolver 2)] [] []

def sibM : Mod := .mk "SibM" [sibA, sibB] [("loc", .resolver 3)] [] [] []

/-- `expX` exports a resolvable handle; `expM` imports it (claim C3's
scenario). -/
def expX : Mod := .mk "X" [] [("s", .resolver 5)] [("s", .resolver 5)] [] []

def expM : Mod := .mk "M" [expX] [] [] [] []

/-- Is an optional registration a plain value registration (`asValue`)? -/
def isValueReg : Option Registration → Bool
  | some (.value _) => true
  | _ => false

/-! ## Memoization -/

/-- The entry check of `registerProvidersWithImports`: an already
memoized module name returns the cached scope with no state change at
all. -/
theorem memo_hit (ctx : Ctx) (fuel : Nat) (m : Mod) (t : Option Nat) (st : St)
    (s : Nat) (h : alookup st.moduleScopes m.name = some s) :
    registerMod ctx fuel m t st = (st, .ok s) := by
  cases fuel with
  | zero => simp [registerMod, h]
  | succ fuel => simp [registerMod, h]

theorem nlookup_append_fresh {β : Type} (l : List (Nat × β)) (k : Nat) (v : β)
    (h : ∀ pr ∈ l, pr.1 ≠ k) : nlookup (l ++ [(k, v)]) k = some v := by
  induction l with
  | nil => simp [nlookup]
  | cons hd tl ih =>
    have hne : hd.1 ≠ k := h hd (List.mem_cons_self hd tl)
    simp only [List.cons_append, nlookup, if_neg hne]
    exact ih (fun pr hpr => h pr (List.mem_cons_of_mem hd hpr))

/-- C2: a memoized module name short-circuits `registerProvidersWithImports`
with no state change whatsoever (no re-validation, no provider
registration, no hooks), and in a diamond import the shared module's
providers are registered exactly once, with both importers holding
registrations that build in the same underlying scope. -/
theorem C2_theorem :
    (∀ (ctx : Ctx) (fuel : Nat) (m : Mod) (t : Option Nat) (st : St) (s : Nat),
        alookup st.moduleScopes m.name = some s →
        registerMod ctx fuel m t st = (st, .ok s)) ∧
    ((((registerModules ⟨false, false⟩ [diaM] St.init).1.events.filter
        (fun e => decide (e = Event.regLocal "X" "xs"))).length = 1 ∧
      alookup (registerModules ⟨false, false⟩ [diaM] St.init).1.moduleScopes "X" = some 2 ∧
      alookup ((nlookup (registerModules ⟨false, false⟩ [diaM] St.init).1.scopes 1).getD []) "xs" =
        some (.importedFn 2 (some 3)) ∧
      alookup ((nlookup (registerModules ⟨false, false⟩ [diaM] St.init).1.scopes 3).getD []) "xs" =
        some (.importedFn 2 (some 3)))) :=
  ⟨fun ctx fuel m t st s h => memo_hit ctx fuel m t st s h, by decide⟩

theorem C2_witness :
    alookup (St.mk [("X", 0)] [] [(0, [])] 1 []).moduleScopes memoX.name = some 0 ∧
    registerMod ⟨false, false⟩ 3 memoX none (St.mk [("X", 0)] [] [(0, [])] 1 []) =
      (St.mk [("X", 0)] [] [(0, [])] 1 [], .ok 0) :=
  ⟨by decide, C2_theorem.1 ⟨false, false⟩ 3 memoX none _ 0 (by decide)⟩

/-- C9: when a module's name is already memoized at its turn inside
`registerModules`, the returned pair holds the freshly created — and
still empty — child scope, not the memoized scope the module actually
lives in. -/
theorem C9_theorem :
    (∀ (ctx : Ctx) (m : Mod) (st : St) (s : Nat),
      alookup st.moduleScopes m.name = some s →
      s < st.nextScope →
      (∀ pr ∈ st.scopes, pr.1 < st.nextScope) →
      registerOne ctx m st =
        ({ st with scopes := st.scopes ++ [(st.nextScope, [])],
                   nextScope := st.nextScope + 1 }, .ok (st.nextScope, m.name)) ∧
      nlookup (st.scopes ++ [(st.nextScope, [])]) st.nextScope = some [] ∧
      st.nextScope ≠ s) ∧
    ((registerModules ⟨false, false⟩ [memoX, memoX] St.init).2 =
        .ok [(0, "X"), (1, "X")] ∧
      nlookup (registerModules ⟨false, false⟩ [memoX, memoX] St.init).1.scopes 1 = some [] ∧
      alookup (registerModules ⟨false, false⟩ [memoX, memoX] St.init).1.moduleScopes "X" = some 0) := by
  constructor
  · intro ctx m st s h hlt hsc
    have hmemo : alookup
        ({ st with scopes := st.scopes ++ [(st.nextScope, [])],
                   nextScope := st.nextScope + 1 } : St).moduleScopes m.name = some s := h
    refine ⟨?_, ?_, ?_⟩
    · simp only [registerOne, createScope]
      rw [memo_hit ctx m.depth m (some st.nextScope) _ s hmemo]
    · exact nlookup_append_fresh st.scopes st.nextScope []
        (fun pr hpr => Nat.ne_of_lt (hsc pr hpr))
    · exact (Nat.ne_of_lt hlt).symm
  · exact ⟨by decide, by decide, by decide⟩

theorem C9_witness :
    alookup (St.mk [("X", 0)] [] [(0, [("s", .resolver 5)])] 1 []).moduleScopes memoX.name = some 0 ∧
    0 < 1 ∧
    registerOne ⟨false, false⟩ memoX (St.mk [("X", 0)] [] [(0, [("s", .resolver 5)])] 1 []) =
      (St.mk [("X", 0)] [] [(0, [("s", .resolver 5)]), (1, [])] 2 [], .ok (1, "X")) :=
  ⟨by decide, by decide,
    ((C9_theorem.1 ⟨false, false⟩ memoX
      (St.mk [("X", 0)] [] [(0, [("s", .resolver 5)])] 1 []) 0
      (by decide) (by decide) (by decide)).1)⟩

/-- C10: the scope registry is updated before hooks are dispatched, so a
hook failure is not rolled back: the module stays memoized, and a later
registration of the same name returns the cached scope with no state
change (no hooks re-run, no error re-raised).  The concrete run shows a
duplicate-controller failure leaving `"M2"` memoized and the retry
succeeding against the unchanged state. -/
theorem C10_theorem :
    (∀ (ctx : Ctx) (fuel fuel2 : Nat) (m : Mod) (t t2 : Option Nat)
        (st st' : St) (e : Err) (sid : Nat),
      registerMod ctx fuel m t st = (st', .error e) →
      alookup st'.moduleScopes m.name = some sid →
      registerMod ctx fuel2 m t2 st' = (st', .ok sid)) ∧
    ((registerMod ⟨false, true⟩ 1 ctlTwice none St.init).2 =
        .error (.duplicateController 7 "M2" "M2") ∧
      alookup (registerMod ⟨false, true⟩ 1 ctlTwice none St.init).1.moduleScopes "M2" = some 0 ∧
      registerMod ⟨false, true⟩ 1 ctlTwice none
          (registerMod ⟨false, true⟩ 1 ctlTwice none St.init).1 =
        ((registerMod ⟨false, true⟩ 1 ctlTwice none St.init).1, .ok 0)) :=
  ⟨fun ctx fuel fuel2 m t t2 st st' e sid _ h2 => memo_hit ctx fuel2 m t2 st' sid h2,
    by decide, by decide, by decide⟩

theorem C10_witness :
    registerMod ⟨false, true⟩ 1 ctlTwice none St.init =
      (St.mk [("M2", 0)] [(7, "M2")] [(0, [])] 1
        [Event.bound 7 "M2", Event.controllerHook 7 0],
       .error (.duplicateController 7 "M2" "M2")) ∧
    alookup (St.mk [("M2", 0)] [(7, "M2")] [(0, [])] 1
        [Event.bound 7 "M2", Event.controllerHook 7 0]).moduleScopes ctlTwice.name = some 0 ∧
    registerMod ⟨false, true⟩ 2 ctlTwice (some 9)
        (St.mk [("M2", 0)] [(7, "M2")] [(0, [])] 1
          [Event.bound 7 "M2", Event.controllerHook 7 0]) =
      (St.mk [("M2", 0)] [(7, "M2")] [(0, [])] 1
        [Event.bound 7 "M2", Event.controllerHook 7 0], .ok 0) :=
  ⟨by decide, by decide,
    C10_theorem.1 ⟨false, true⟩ 1 2 ctlTwice none (some 9) St.init _
      (.duplicateController 7 "M2" "M2") 0 (by decide) (by decide)⟩

theorem nlookup_append {β : Type} (l₁ l₂ : List (Nat × β)) (k : Nat) :
    nlookup (l₁ ++ l₂) k =
      match nlookup l₁ k with
      | some v => some v
      | none => nlookup l₂ k := by
  induction l₁ with
  | nil => simp [nlookup]
  | cons hd tl ih =>
    by_cases h : hd.1 = k
    · simp [nlookup, h]
    · simp only [List.cons_append, nlookup, if_neg h]
      exact ih

/-- Success run of the controller loop: every constructor unbound on
entry and no repeats means each gets bound and hooked, binding first. -/
theorem processControllersLoop_fresh (mname : String) (sid : Nat) :
    ∀ (cs : List Nat) (st : St), cs.Nodup →
      (∀ c ∈ cs, nlookup st.registeredControllers c = none) →
      processControllersLoop mname sid cs st =
        ({ st with
            registeredControllers :=
              st.registeredControllers ++ cs.map (fun c => (c, mname)),
            events := st.events ++
              (cs.map (fun c => [Event.bound c mname, Event.controllerHook c sid])).flatten },
          .ok ()) := by
  intro cs
  induction cs with
  | nil => intro st _ _; simp [processControllersLoop]
  | cons c rest ih =>
    intro st hnd hfresh
    have hc : nlookup st.registeredControllers c = none :=
      hfresh c (List.mem_cons_self c rest)
    simp only [processControllersLoop, hc]
    rw [ih]
    · simp [List.append_assoc]
    · exact (List.nodup_cons.mp hnd).2
    · intro c' hc'
      rw [nlookup_append]
      have hcc' : c ≠ c' := fun hh => (List.nodup_cons.mp hnd).1 (hh ▸ hc')
      simp [hfresh c' (List.mem_cons_of_mem c hc'), nlookup, hcc']

/-- An already bound constructor at the head of the loop aborts at once,
naming the owning module and the current one. -/
theorem processControllersLoop_bound (mname : String) (sid : Nat) (c : Nat)
    (rest : List Nat) (st : St) (n : String)
    (h : nlookup st.registeredControllers c = some n) :
    processControllersLoop mname sid (c :: rest) st =
      (st, .error (.duplicateController c n mname)) := by
  simp [processControllersLoop, h]

/-- C7 (amended): if the controller constructor is already bound in the
registry to **any** module name — including the current module itself, as
happens when one module lists the same constructor twice — dispatch
aborts with an error naming the bound module and the current module;
otherwise each constructor is bound to the current module name before its
`onController` invocation (the `bound` event precedes the
`controllerHook` event). -/
theorem C7_theorem :
    (∀ (mname : String) (sid : Nat) (cs : List Nat) (st : St), cs.Nodup →
      (∀ c ∈ cs, nlookup st.registeredControllers c = none) →
      processControllersLoop mname sid cs st =
        ({ st with
            registeredControllers :=
              st.registeredControllers ++ cs.map (fun c => (c, mname)),
            events := st.events ++
              (cs.map (fun c => [Event.bound c mname, Event.controllerHook c sid])).flatten },
          .ok ())) ∧
    (∀ (mname : String) (sid : Nat) (c : Nat) (rest : List Nat) (st : St) (n : String),
      nlookup st.registeredControllers c = some n →
      processControllersLoop mname sid (c :: rest) st =
        (st, .error (.duplicateController c n mname))) ∧
    (∀ (ctx : Ctx) (m : Mod) (sid : Nat) (st : St),
      ctx.onController = true → m.controllers ≠ [] →
      processControllers ctx m sid st = processControllersLoop m.name sid m.controllers st) := by
  refine ⟨processControllersLoop_fresh, processControllersLoop_bound, ?_⟩
  intro ctx m sid st h1 h2
  simp [processControllers, h1, h2]

theorem C7_witness :
    ([5] : List Nat).Nodup ∧
    (∀ c ∈ ([5] : List Nat), nlookup St.init.registeredControllers c = none) ∧
    processControllersLoop "CtlA" 0 [5] St.init =
      (St.mk [] [(5, "CtlA")] [] 0 [Event.bound 5 "CtlA", Event.controllerHook 5 0], .ok ()) ∧
    nlookup [(5, "CtlA")] 5 = some "CtlA" ∧
    processControllersLoop "CtlB" 1 [5]
        (St.mk [] [(5, "CtlA")] [] 0 [Event.bound 5 "CtlA", Event.controllerHook 5 0]) =
      (St.mk [] [(5, "CtlA")] [] 0 [Event.bound 5 "CtlA", Event.controllerHook 5 0],
        .error (.duplicateController 5 "CtlA" "CtlB")) := by
  refine ⟨by decide, by decide, ?_, by decide, ?_⟩
  · have h := C7_theorem.1 "CtlA" 0 [5] St.init (by decide) (by decide)
    simpa using h
  · exact C7_theorem.2.1 "CtlB" 1 5 [] _ "CtlA" (by decide)

/-- C7 counterexample: a module listing the same controller constructor
twice.  At the second occurrence the constructor is bound to the *current*
module's own name — not to a different module — yet dispatch aborts, with
an error whose "owning" and "attempting" modules are both `"M2"`, and the
`onController` callback has fired only once.  Under the claim as stated
("otherwise the constructor is bound … and the callback is invoked") this
run would have succeeded with two invocations. -/
theorem C7_counterexample :
    (registerModules ⟨false, true⟩ [ctlTwice] St.init).2 =
      .error (.duplicateController 7 "M2" "M2") ∧
    ((registerModules ⟨false, true⟩ [ctlTwice] St.init).1.events.filter
      (fun e => decide (e = Event.controllerHook 7 0))).length = 1 ∧
    ctlTwice.controllers = [7, 7] := by
  exact ⟨by decide, by decide, by decide⟩

/-! ## Semantics of the local dependency graph -/

/-- The `inject` list of a provider spec (empty for non-factories, whose
entries `buildDepGraph` skips). -/
def injList : Provider → List String
  | .factory inj _ => inj
  | _ => []

/-- The `inject` list of the provider registered under `k`. -/
def injOf (providers : List (String × Provider)) (k : String) : List String :=
  match alookup providers k with
  | some pr => injList pr
  | none => []

/-- The keys whose factories inject `d`, in declaration order — the
dependent list `buildDepGraph` accumulates under `d` (one occurrence per
dependent when no `inject` list repeats a key). -/
def depsSpec (providers : List (String × Provider)) (d : String) : List String :=
  (providers.filter (fun kv => decide (d ∈ injList kv.2))).map Prod.fst

/-- A module's local provider dependency graph is acyclic: the keys admit
a rank function that strictly increases along every `inject` edge. -/
def Acyclic (providers : List (String × Provider)) : Prop :=
  ∃ r : String → Nat, ∀ k d, d ∈ injOf providers k → r d < r k

/-- C5: whenever the sorted result has fewer keys than the module has
providers, `sortProvidersByDependencies` throws the circular-dependency
error naming the module and exactly the provider keys absent from the
result; concretely, two mutually injecting providers `a` and `b` make
registration fail with an error mentioning both. -/
theorem C5_theorem :
    (∀ (name : String) (providers : List (String × Provider)) (sortedKeys : List String),
      sortedKeysOf name providers = .ok sortedKeys →
      sortedKeys.length < (providers.map Prod.fst).length →
      sortProvidersByDependencies name providers =
        .error (.circular name
          ((providers.map Prod.fst).filter (fun k => decide (k ∉ sortedKeys)))) ∧
      (∀ k ∈ providers.map Prod.fst, k ∉ sortedKeys →
        k ∈ (providers.map Prod.fst).filter (fun k => decide (k ∉ sortedKeys))) ∧
      (∀ k ∈ (providers.map Prod.fst).filter (fun k => decide (k ∉ sortedKeys)),
        k ∉ sortedKeys)) ∧
    ((registerModules ⟨false, false⟩ [cycM] St.init).2 =
        .error (.circular "MCyc" ["a", "b"]) ∧
      "a" ∈ ["a", "b"] ∧ "b" ∈ ("a" :: ["b"])) := by
  constructor
  · intro name providers sortedKeys hsk hlt
    refine ⟨?_, ?_, ?_⟩
    · have hne : sortedKeys.length ≠ (providers.map Prod.fst).length := Nat.ne_of_lt hlt
      simp only [sortProvidersByDependencies, hsk, ensureNoCyclicDependencies]
      rw [if_pos hne]
    · intro k hk hnk
      exact List.mem_filter.mpr ⟨hk, by simpa using hnk⟩
    · intro k hk
      simpa using (List.mem_filter.mp hk).2
  · exact ⟨by decide, by decide, by decide⟩

theorem C5_witness :
    sortedKeysOf "MCyc" cycM.providers = .ok [] ∧
    ([] : List String).length < (cycM.providers.map Prod.fst).length ∧
    sortProvidersByDependencies "MCyc" cycM.providers =
      .error (.circular "MCyc"
        ((cycM.providers.map Prod.fst).filter (fun k => decide (k ∉ ([] : List String))))) :=
  ⟨by decide, by decide,
    (C5_theorem.1 "MCyc" cycM.providers [] (by decide) (by decide)).1⟩

/-! ## Graph-build error analysis (claim C6) -/

theorem foldl_bdgInner_error (name key : String) (l : List String) (e : Err) :
    l.foldl (bdgInnerStep name key) (.error e) = .error e := by
  induction l with
  | nil => rfl
  | cons hd tl ih => simpa [bdgInnerStep] using ih

theorem foldl_bdgOuter_error (name : String) (l : List (String × Provider)) (e : Err) :
    l.foldl (bdgOuterStep name) (.error e) = .error e := by
  induction l with
  | nil => rfl
  | cons hd tl ih => simpa [bdgOuterStep] using ih

theorem bdgInner_ok_keys (name key : String) (S : List String) :
    ∀ (inj : List String) (g : ProdiderDepsGraph),
      (∀ x, x ∈ g.graph.map Prod.fst ↔ x ∈ S) →
      (∀ d ∈ inj, d ∈ S) →
      ∃ g', inj.foldl (bdgInnerStep name key) (.ok g) = .ok g' ∧
        ∀ x, x ∈ g'.graph.map Prod.fst ↔ x ∈ S := by
  intro inj
  induction inj with
  | nil => intro g hg _; exact ⟨g, rfl, hg⟩
  | cons d tl ih =>
    intro g hg hgood
    have hdS : d ∈ S := hgood d (List.mem_cons_self d tl)
    obtain ⟨depList, hdep⟩ := (alookup_isSome g.graph d).mpr ((hg d).mpr hdS)
    have hstep : bdgInnerStep name key (.ok g) d =
        .ok { graph := aupsert g.graph d (depList ++ [key]),
              inDegree :=
                aupsert g.inDegree key (((alookup g.inDegree key).getD 0) + 1) } := by
      simp [bdgInnerStep, hdep]
    have hg' : ∀ x,
        x ∈ (aupsert g.graph d (depList ++ [key])).map Prod.fst ↔ x ∈ S := by
      intro x
      rw [aupsert_map_fst_mem]
      constructor
      · rintro (h | h)
        · exact (hg x).mp h
        · exact h ▸ hdS
      · intro h
        exact Or.inl ((hg x).mpr h)
    simp only [List.foldl_cons, hstep]
    exact ih _ hg' (fun d' hd' => hgood d' (List.mem_cons_of_mem d hd'))

theorem bdgInner_error_bad (name key : String) (S : List String) :
    ∀ (inj : List String) (g : ProdiderDepsGraph),
      (∀ x, x ∈ g.graph.map Prod.fst ↔ x ∈ S) →
      (∃ d ∈ inj, d ∉ S) →
      ∃ d', d' ∉ S ∧ d' ∈ inj ∧
        inj.foldl (bdgInnerStep name key) (.ok g) = .error (.depNotInGraph d' name) := by
  intro inj
  induction inj with
  | nil => rintro g _ ⟨d, hd, _⟩; exact absurd hd (List.not_mem_nil d)
  | cons d0 tl ih =>
    intro g hg hbad
    by_cases hd0 : d0 ∈ S
    · obtain ⟨depList, hdep⟩ := (alookup_isSome g.graph d0).mpr ((hg d0).mpr hd0)
      have hstep : bdgInnerStep name key (.ok g) d0 =
          .ok { graph := aupsert g.graph d0 (depList ++ [key]),
                inDegree :=
                  aupsert g.inDegree key (((alookup g.inDegree key).getD 0) + 1) } := by
        simp [bdgInnerStep, hdep]
      have hg' : ∀ x,
          x ∈ (aupsert g.graph d0 (depList ++ [key])).map Prod.fst ↔ x ∈ S := by
        intro x
        rw [aupsert_map_fst_mem]
        constructor
        · rintro (h | h)
          · exact (hg x).mp h
          · exact h ▸ hd0
        · intro h
          exact Or.inl ((hg x).mpr h)
      obtain ⟨d, hd, hdS⟩ := hbad
      have hdtl : d ∈ tl := by
        rcases List.mem_cons.mp hd with h | h
        · exact absurd (h ▸ hd0) hdS
        · exact h
      obtain ⟨d', h1, h2, h3⟩ := ih
        { graph := aupsert g.graph d0 (depList ++ [key]),
          inDegree := aupsert g.inDegree key (((alookup g.inDegree key).getD 0) + 1) }
        hg' ⟨d, hdtl, hdS⟩
      exact ⟨d', h1, List.mem_cons_of_mem d0 h2, by simp only [List.foldl_cons, hstep]; exact h3⟩
    · have hnone : alookup g.graph d0 = none :=
        (alookup_eq_none g.graph d0).mpr (fun h => hd0 ((hg d0).mp h))
      have hstep : bdgInnerStep name key (.ok g) d0 =
          .error (.depNotInGraph d0 name) := by
        simp [bdgInnerStep, hnone]
      refine ⟨d0, hd0, List.mem_cons_self d0 tl, ?_⟩
      simp only [List.foldl_cons, hstep]
      exact foldl_bdgInner_error name key tl _

theorem bdgOuter_error_bad (name : String) (S : List String) :
    ∀ (ps : List (String × Provider)) (g : ProdiderDepsGraph),
      (∀ x, x ∈ g.graph.map Prod.fst ↔ x ∈ S) →
      (∃ kv ∈ ps, ∃ d ∈ injList kv.2, d ∉ S) →
      ∃ d', d' ∉ S ∧ (∃ kv ∈ ps, d' ∈ injList kv.2) ∧
        ps.foldl (bdgOuterStep name) (.ok g) = .error (.depNotInGraph d' name) := by
  intro ps
  induction ps with
  | nil => rintro g _ ⟨kv, hkv, _⟩; exact absurd hkv (List.not_mem_nil kv)
  | cons kv0 tl ih =>
    intro g hg hbad
    by_cases hbad0 : ∃ d ∈ injList kv0.2, d ∉ S
    · cases hpr : kv0.2 with
      | factory inject fid =>
        have hbad0' : ∃ d ∈ inject, d ∉ S := by
          obtain ⟨d, hd, hdS⟩ := hbad0
          rw [hpr] at hd
          exact ⟨d, hd, hdS⟩
        obtain ⟨d', h1, h2, h3⟩ := bdgInner_error_bad name kv0.1 S inject g hg hbad0'
        refine ⟨d', h1, ⟨kv0, List.mem_cons_self kv0 tl, by rw [hpr]; exact h2⟩, ?_⟩
        have hstep : bdgOuterStep name (.ok g) kv0 = .error (.depNotInGraph d' name) := by
          simp only [bdgOuterStep, hpr]
          exact h3
        simp only [List.foldl_cons, hstep]
        exact foldl_bdgOuter_error name tl _
      | resolver rid => exact absurd hbad0 (by rw [hpr]; simp [injList])
      | classProvider c => exact absurd hbad0 (by rw [hpr]; simp [injList])
      | classCtor c => exact absurd hbad0 (by rw [hpr]; simp [injList])
    · have hclean : ∀ d ∈ injList kv0.2, d ∈ S := by
        intro d hd
        by_contra hc
        exact hbad0 ⟨d, hd, hc⟩
      obtain ⟨kv, hkv, d, hd, hdS⟩ := hbad
      have hkvtl : kv ∈ tl := by
        rcases List.mem_cons.mp hkv with h | h
        · subst h
          exact absurd (hclean d hd) hdS
        · exact h
      have hstep : ∃ g', bdgOuterStep name (.ok g) kv0 = .ok g' ∧
          ∀ x, x ∈ g'.graph.map Prod.fst ↔ x ∈ S := by
        cases hpr : kv0.2 with
        | factory inject fid =>
          have hclean' : ∀ d' ∈ inject, d' ∈ S := by
            intro d' hd'
            exact hclean d' (by rw [hpr]; exact hd')
          obtain ⟨g', hok, hg'⟩ := bdgInner_ok_keys name kv0.1 S inject g hg hclean'
          exact ⟨g', by simp only [bdgOuterStep, hpr]; exact hok, hg'⟩
        | resolver rid => exact ⟨g, by simp [bdgOuterStep, hpr], hg⟩
        | classProvider c => exact ⟨g, by simp [bdgOuterStep, hpr], hg⟩
        | classCtor c => exact ⟨g, by simp [bdgOuterStep, hpr], hg⟩
      obtain ⟨g', hstep, hg'⟩ := hstep
      obtain ⟨d', h1, ⟨kv', hkv', hd'⟩, h3⟩ := ih g' hg' ⟨kv, hkvtl, d, hd, hdS⟩
      exact ⟨d', h1, ⟨kv', List.mem_cons_of_mem kv0 hkv', hd'⟩,
        by simp only [List.foldl_cons, hstep]; exact h3⟩

theorem initDepGraph_keys :
    ∀ (ps : List (String × Provider)) (acc : ProdiderDepsGraph) (x : String),
      x ∈ ((ps.foldl
        (fun acc kv =>
          { graph := aupsert acc.graph kv.1 [],
            inDegree := aupsert acc.inDegree kv.1 0 })
        acc).graph).map Prod.fst ↔
        x ∈ acc.graph.map Prod.fst ∨ x ∈ ps.map Prod.fst := by
  intro ps
  induction ps with
  | nil => intro acc x; simp
  | cons kv tl ih =>
    intro acc x
    simp only [List.foldl_cons, List.map_cons, List.mem_cons]
    rw [ih]
    simp only [aupsert_map_fst_mem]
    tauto

/-- C6: an `inject` key that is not a local provider key of the same
module makes graph construction throw immediately — an error naming an
offending key and the module — even when the key is supplied by an
exporting import; the concrete run shows the error surfacing before any
local provider of the module is registered (its scope holds only the
merged import key) and before any factory has executed. -/
theorem C6_theorem :
    (∀ (name : String) (providers : List (String × Provider)),
      (∃ kv ∈ providers, ∃ d ∈ injList kv.2, d ∉ providers.map Prod.fst) →
      ∃ d', d' ∉ providers.map Prod.fst ∧ (∃ kv ∈ providers, d' ∈ injList kv.2) ∧
        buildDepGraph name providers (initDepGraph providers) =
          .error (.depNotInGraph d' name) ∧
        sortProvidersByDependencies name providers = .error (.depNotInGraph d' name)) ∧
    ((registerModules ⟨false, false⟩ [badM] St.init).2 =
        .error (.depNotInGraph "s" "MBad") ∧
      "s" ∈ memoX.exports.map Prod.fst ∧
      "s" ∉ badM.providers.map Prod.fst ∧
      ((nlookup (registerModules ⟨false, false⟩ [badM] St.init).1.scopes 0).getD
          []).map Prod.fst = ["s"] ∧
      (registerModules ⟨false, false⟩ [badM] St.init).1.events.filter
        (fun e => decide (e = Event.regLocal "MBad" "f")) = [] ∧
      (registerModules ⟨false, false⟩ [badM] St.init).1.events.filter
        (fun e => match e with | .factoryRun _ _ => true | _ => false) = []) := by
  constructor
  · intro name providers hbad
    have hinit : ∀ x, x ∈ (initDepGraph providers).graph.map Prod.fst ↔
        x ∈ providers.map Prod.fst := by
      intro x
      have h := initDepGraph_keys providers ⟨[], []⟩ x
      simpa [initDepGraph] using h
    obtain ⟨d', h1, h2, h3⟩ :=
      bdgOuter_error_bad name (providers.map Prod.fst) providers
        (initDepGraph providers) hinit hbad
    refine ⟨d', h1, h2, h3, ?_⟩
    simp [sortProvidersByDependencies, sortedKeysOf, depsGraphOf, buildDepGraph, h3,
      Except.map]
  · exact ⟨by decide, by decide, by decide, by decide, by decide, by decide⟩

theorem C6_witness :
    (∃ kv ∈ badM.providers, ∃ d ∈ injList kv.2, d ∉ badM.providers.map Prod.fst) ∧
    ∃ d', d' ∉ badM.providers.map Prod.fst ∧
      (∃ kv ∈ badM.providers, d' ∈ injList kv.2) ∧
      buildDepGraph "MBad" badM.providers (initDepGraph badM.providers) =
        .error (.depNotInGraph d' "MBad") ∧
      sortProvidersByDependencies "MBad" badM.providers =
        .error (.depNotInGraph d' "MBad") :=
  ⟨⟨("f", .factory ["s"] 4), by decide, "s", by decide, by decide⟩,
    C6_theorem.1 "MBad" badM.providers
      ⟨("f", .factory ["s"] 4), by decide, "s", by decide, by decide⟩⟩

/-! ## The import-export merge (claims C8 and C3) -/

theorem getLast?_cons_eq {α : Type} (a : α) (l : List α) :
    (a :: l).getLast? =
      match l.getLast? with
      | some x => some x
      | none => some a := by
  rw [List.getLast?_cons]
  rcases l.getLast? with _ | x <;> rfl

theorem getLast?_mem {α : Type} {l : List α} {a : α} (h : l.getLast? = some a) :
    a ∈ l := by
  induction l with
  | nil => simp at h
  | cons hd tl ih =>
    rw [getLast?_cons_eq] at h
    rcases hh : tl.getLast? with _ | x
    · rw [hh] at h
      exact (Option.some.inj h) ▸ List.mem_cons_self hd tl
    · rw [hh] at h
      exact List.mem_cons_of_mem hd (ih (hh.trans h))

/-- The value the merge's `reduce` leaves under `k` comes from the *last*
flat-mapped entry whose key is `k` (the JS object keeps the first
occurrence's position but the last write's value). -/
theorem merge_lookup : ∀ (es : List ImportEntry)
    (acc : List (String × Registration)) (k : String),
    alookup (es.foldl (fun a e => aupsert a e.key (.importedFn e.scope e.useClass)) acc) k =
      match (es.filter (fun e => decide (e.key = k))).getLast? with
      | some e => some (.importedFn e.scope e.useClass)
      | none => alookup acc k := by
  intro es
  induction es with
  | nil => intro acc k; rfl
  | cons e0 rest ih =>
    intro acc k
    simp only [List.foldl_cons, List.filter_cons]
    by_cases hk : e0.key = k
    · rw [if_pos (by simpa using hk)]
      rw [ih, getLast?_cons_eq]
      rcases h : (rest.filter (fun e => decide (e.key = k))).getLast? with _ | e
      · simp only [h]
        subst hk
        exact alookup_aupsert_self acc e0.key _
      · simp only [h]
    · rw [if_neg (by simpa using hk)]
      rw [ih]
      rcases h : (rest.filter (fun e => decide (e.key = k))).getLast? with _ | e
      · simp only [h]
        exact alookup_aupsert_ne acc e0.key k _ (fun hh => hk hh.symm)
      · simp only [h]

/-- C8: two sibling imports exporting the same key raise no error and the
later import's entry wins: the merged registration under `k` is built
from the **last** flat-mapped export entry for `k`, and the
provider-name-conflict check only fires on local-vs-import collisions.
The concrete run registers `sibA` then `sibB` (both exporting `"k"`) and
ends with `"k"` building in `sibB`'s scope. -/
theorem C8_theorem :
    (∀ (es : List ImportEntry) (k : String),
      alookup (mergeImportEntries es) k =
        match (es.filter (fun e => decide (e.key = k))).getLast? with
        | some e => some (.importedFn e.scope e.useClass)
        | none => none) ∧
    (∀ m : Mod,
      (∀ k ∈ (m.imports.map (fun imp => imp.exports.map Prod.fst)).flatten,
        k ∉ m.providers.map Prod.fst) →
      ensureNoProviderNameConflicts m = .ok ()) ∧
    ((registerModules ⟨false, false⟩ [sibM] St.init).2 = .ok [(0, "SibM")] ∧
      alookup (registerModules ⟨false, false⟩ [sibM] St.init).1.moduleScopes "SibB" = some 2 ∧
      alookup (registerModules ⟨false, false⟩ [sibM] St.init).1.moduleScopes "SibA" = some 1 ∧
      alookup ((nlookup (registerModules ⟨false, false⟩ [sibM] St.init).1.scopes 0).getD [])
        "k" = some (.importedFn 2 none)) := by
  refine ⟨?_, ?_, by decide, by decide, by decide, by decide⟩
  · intro es k
    rw [mergeImportEntries, merge_lookup]
    rcases (es.filter (fun e => decide (e.key = k))).getLast? with _ | e <;> rfl
  · intro m h
    have hconf :
        ((m.imports.map (fun imp => imp.exports.map Prod.fst)).flatten.filter
          (fun k => decide (k ∈ m.providers.map Prod.fst))) = [] := by
      rw [List.filter_eq_nil_iff]
      intro k hk
      simpa using h k hk
    simp [ensureNoProviderNameConflicts, hconf]

theorem C8_witness :
    (∀ k ∈ (sibM.imports.map (fun imp => imp.exports.map Prod.fst)).flatten,
      k ∉ sibM.providers.map Prod.fst) ∧
    ensureNoProviderNameConflicts sibM = .ok () ∧
    alookup (mergeImportEntries [⟨"k", 1, none⟩, ⟨"k", 2, none⟩]) "k" =
      some (.importedFn 2 none) :=
  ⟨by decide, C8_theorem.2.1 sibM (by decide), by
    rw [C8_theorem.1 [⟨"k", 1, none⟩, ⟨"k", 2, none⟩] "k"]
    rfl⟩

/-- C3 counterexample: module `expX` exports `"s"`, whose registration in
`expX`'s own scope is a resolvable handle (`Registration.resolver 5`).
The claim says the importer's scope then holds the value resolved within
the origin scope, re-registered as a plain value; instead the importer's
scope holds a function resolver (`asFunction(() => originScope.build(…))`),
not a value registration at all. -/
theorem C3_counterexample :
    alookup ((nlookup (registerModules ⟨false, false⟩ [expM] St.init).1.scopes 1).getD [])
      "s" = some (.resolver 5) ∧
    alookup (registerModules ⟨false, false⟩ [expM] St.init).1.moduleScopes "X" = some 1 ∧
    alookup ((nlookup (registerModules ⟨false, false⟩ [expM] St.init).1.scopes 0).getD [])
      "s" = some (.importedFn 1 none) ∧
    isValueReg (alookup
      ((nlookup (registerModules ⟨false, false⟩ [expM] St.init).1.scopes 0).getD [])
      "s") = false := by
  exact ⟨by decide, by decide, by decide, by decide⟩

/-- C3 (amended): when merging an import's exports, the registrar
registers under every exported key a *function resolver* that lazily
builds the exported spec's `useClass` within the origin (imported)
module's scope — the constructor itself for a bare class constructor, the
`useClass` field for a class provider, and no build target for resolver
or factory specs.  No exported registration is copied as-is and none is
eagerly resolved into a plain value. -/
theorem C3_theorem :
    (∀ (es : List ImportEntry) (k : String) (r : Registration),
      alookup (mergeImportEntries es) k = some r →
      ∃ e ∈ es, e.key = k ∧ r = .importedFn e.scope e.useClass) ∧
    (∀ (imp : Mod) (sid : Nat),
      mkImportEntries imp sid =
        imp.exports.map (fun kv => ⟨kv.1, sid, extractUseClass kv.2⟩)) ∧
    ((∀ rid, extractUseClass (.resolver rid) = none) ∧
      (∀ inj fid, extractUseClass (.factory inj fid) = none) ∧
      (∀ c, extractUseClass (.classProvider c) = some c) ∧
      (∀ c, extractUseClass (.classCtor c) = some c)) := by
  refine ⟨?_, fun imp sid => rfl,
    fun rid => rfl, fun inj fid => rfl, fun c => rfl, fun c => rfl⟩
  intro es k r h
  rw [mergeImportEntries, merge_lookup] at h
  rcases hl : (es.filter (fun e => decide (e.key = k))).getLast? with _ | e
  · rw [hl] at h
    exact Option.noConfusion h
  · rw [hl] at h
    have he := getLast?_mem hl
    have hmem := List.mem_filter.mp he
    exact ⟨e, hmem.1, by simpa using hmem.2, (Option.some.inj h).symm⟩

theorem C3_witness :
    alookup (mergeImportEntries (mkImportEntries expX 1)) "s" =
      some (.importedFn 1 none) ∧
    ∃ e ∈ mkImportEntries expX 1, e.key = "s" ∧
      Registration.importedFn 1 none = .importedFn e.scope e.useClass :=
  ⟨by decide, C3_theorem.1 (mkImportEntries expX 1) "s" (.importedFn 1 none) (by decide)⟩

/-! ## Characterization of the built dependency graph (claims C1, C4) -/

theorem aupsert_fresh {β : Type} (l : List (String × β)) (k : String) (v : β)
    (h : k ∉ l.map Prod.fst) : aupsert l k v = l ++ [(k, v)] := by
  induction l with
  | nil => rfl
  | cons hd tl ih =>
    have hne : hd.1 ≠ k := by
      intro hh
      exact h (by rw [← hh]; exact List.mem_map.mpr ⟨hd, List.mem_cons_self hd tl, rfl⟩)
    simp only [aupsert, if_neg hne, List.cons_append, List.cons.injEq, true_and]
    exact ih (fun hh => h (List.mem_cons_of_mem _ hh))

theorem assoc_ext {γ : Type} :
    ∀ (l₁ l₂ : List (String × γ)), l₁.map Prod.fst = l₂.map Prod.fst →
      (l₁.map Prod.fst).Nodup → (∀ k, alookup l₁ k = alookup l₂ k) → l₁ = l₂ := by
  intro l₁
  induction l₁ with
  | nil =>
    intro l₂ hmap _ _
    cases l₂ with
    | nil => rfl
    | cons hd tl => simp at hmap
  | cons hd tl ih =>
    intro l₂ hmap hnd hlk
    cases l₂ with
    | nil => simp at hmap
    | cons hd' tl' =>
      simp only [List.map_cons, List.cons.injEq] at hmap
      have hfst : hd.1 = hd'.1 := hmap.1
      have hsnd : hd.2 = hd'.2 := by
        have h := hlk hd.1
        simp only [alookup, if_pos rfl] at h
        rw [if_pos hfst.symm] at h
        exact Option.some.inj h
      have hhd : hd = hd' := Prod.ext hfst hsnd
      simp only [List.map_cons, List.nodup_cons] at hnd
      refine List.cons_eq_cons.mpr ⟨hhd, ih tl' hmap.2 hnd.2 ?_⟩
      intro k
      by_cases hk : k = hd.1
      · have h1 : alookup tl k = none :=
          (alookup_eq_none tl k).mpr (by rw [hk]; exact hnd.1)
        have h2 : alookup tl' k = none := by
          rw [alookup_eq_none, ← hmap.2, hk]
          exact hnd.1
        rw [h1, h2]
      · have h := hlk k
        simp only [alookup] at h
        rw [if_neg (fun hh => hk hh.symm), if_neg (by rw [← hfst]; exact fun hh => hk hh.symm)] at h
        exact h

/-- Membership in the dependent list: `x` depends on `c`. -/
theorem mem_depsSpec (p : List (String × Provider)) (c x : String) :
    x ∈ depsSpec p c ↔ ∃ kv ∈ p, kv.1 = x ∧ c ∈ injList kv.2 := by
  simp only [depsSpec, List.mem_map, List.mem_filter, decide_eq_true_eq]
  constructor
  · rintro ⟨kv, ⟨h1, h2⟩, h3⟩
    exact ⟨kv, h1, h3, h2⟩
  · rintro ⟨kv, h1, h2, h3⟩
    exact ⟨kv, ⟨h1, h3⟩, h2⟩

/-- `injOf` of entries: under key uniqueness, each entry's `inject` list
is `injOf` at its key. -/
theorem injOf_entry {p : List (String × Provider)}
    (hnd : (p.map Prod.fst).Nodup) {kv : String × Provider} (h : kv ∈ p) :
    injOf p kv.1 = injList kv.2 := by
  have hmem : (kv.1, kv.2) ∈ p := by rw [Prod.mk.eta]; exact h
  rw [injOf, alookup_of_mem_nodup hnd hmem]

theorem mem_depsSpec_nodup {p : List (String × Provider)}
    (hnd : (p.map Prod.fst).Nodup) (c x : String) :
    x ∈ depsSpec p c ↔ x ∈ p.map Prod.fst ∧ c ∈ injOf p x := by
  rw [mem_depsSpec]
  constructor
  · rintro ⟨kv, h1, h2, h3⟩
    subst h2
    exact ⟨List.mem_map.mpr ⟨kv, h1, rfl⟩, by rw [injOf_entry hnd h1]; exact h3⟩
  · rintro ⟨h1, h2⟩
    obtain ⟨kv, hkv, hfst⟩ := List.mem_map.mp h1
    refine ⟨kv, hkv, hfst, ?_⟩
    rw [← hfst, injOf_entry hnd hkv] at h2
    exact h2

theorem depsSpec_nodup {p : List (String × Provider)}
    (hnd : (p.map Prod.fst).Nodup) (c : String) : (depsSpec p c).Nodup := by
  have hsub : List.Sublist
      ((p.filter (fun kv => decide (c ∈ injList kv.2))).map Prod.fst)
      (p.map Prod.fst) := (List.filter_sublist p).map Prod.fst
  exact hnd.sublist hsub

theorem depsSpec_subset {p : List (String × Provider)} (c x : String)
    (h : x ∈ depsSpec p c) : x ∈ p.map Prod.fst := by
  obtain ⟨kv, h1, h2, _⟩ := (mem_depsSpec p c x).mp h
  exact List.mem_map.mpr ⟨kv, h1, h2⟩

theorem aupsert_map_fst_of_mem {β : Type} (l : List (String × β)) (k : String) (v : β)
    (h : k ∈ l.map Prod.fst) : (aupsert l k v).map Prod.fst = l.map Prod.fst := by
  induction l with
  | nil => simp at h
  | cons hd tl ih =>
    by_cases hh : hd.1 = k
    · simp only [aupsert, if_pos hh, List.map_cons]
    · simp only [List.map_cons, List.mem_cons] at h
      rcases h with h | h
      · exact absurd h.symm hh
      · simp only [aupsert, if_neg hh, List.map_cons, ih h]

/-- Two entries of an association list with duplicate-free keys and the
same key coincide. -/
theorem mem_nodup_eq {β : Type} {l : List (String × β)} {a b : String × β}
    (hnd : (l.map Prod.fst).Nodup) (ha : a ∈ l) (hb : b ∈ l) (hk : a.1 = b.1) :
    a = b := by
  have h1 := alookup_of_mem_nodup hnd (by rw [Prod.mk.eta]; exact ha)
  have h2 := alookup_of_mem_nodup hnd (by rw [Prod.mk.eta]; exact hb)
  rw [hk] at h1
  rw [h1] at h2
  have := Option.some.inj h2
  calc a = (a.1, a.2) := (Prod.mk.eta).symm
    _ = (b.1, b.2) := by rw [hk, this]
    _ = b := Prod.mk.eta

theorem map_fst_of_keyed_map {β : Type} (p : List (String × Provider))
    (f : String × Provider → β) :
    ((p.map (fun kv => (kv.1, f kv))).map Prod.fst) = p.map Prod.fst := by
  rw [List.map_map]
  rfl

theorem alookup_keyed_map {β : Type} {p : List (String × Provider)}
    (hnd : (p.map Prod.fst).Nodup) (f : String × Provider → β)
    {kv : String × Provider} (h : kv ∈ p) :
    alookup (p.map (fun kv => (kv.1, f kv))) kv.1 = some (f kv) := by
  have hnd' : ((p.map (fun kv => (kv.1, f kv))).map Prod.fst).Nodup := by
    rw [map_fst_of_keyed_map]; exact hnd
  exact alookup_of_mem_nodup hnd' (List.mem_map.mpr ⟨kv, h, rfl⟩)

theorem initDepGraph_eq_aux :
    ∀ (ps : List (String × Provider)) (accG : List (String × List String))
      (accD : List (String × Int)),
      (ps.map Prod.fst).Nodup →
      (∀ k ∈ ps.map Prod.fst, k ∉ accG.map Prod.fst) →
      (∀ k ∈ ps.map Prod.fst, k ∉ accD.map Prod.fst) →
      ps.foldl
        (fun (acc : ProdiderDepsGraph) kv =>
          { graph := aupsert acc.graph kv.1 [],
            inDegree := aupsert acc.inDegree kv.1 0 })
        (⟨accG, accD⟩ : ProdiderDepsGraph) =
        (⟨accG ++ ps.map (fun kv => (kv.1, [])),
          accD ++ ps.map (fun kv => (kv.1, (0 : Int)))⟩ : ProdiderDepsGraph) := by
  intro ps
  induction ps with
  | nil => intro accG accD _ _ _; simp
  | cons kv tl ih =>
    intro accG accD hnd hG hD
    simp only [List.map_cons, List.nodup_cons] at hnd
    have hkG : kv.1 ∉ accG.map Prod.fst :=
      hG kv.1 (by simp)
    have hkD : kv.1 ∉ accD.map Prod.fst :=
      hD kv.1 (by simp)
    simp only [List.foldl_cons]
    rw [aupsert_fresh _ _ _ hkG, aupsert_fresh _ _ _ hkD]
    rw [ih (accG ++ [(kv.1, [])]) (accD ++ [(kv.1, 0)]) hnd.2 ?_ ?_]
    · simp
    · intro k hk
      simp only [List.map_append, List.map_cons, List.map_nil, List.mem_append,
        List.mem_singleton]
      rintro (h | h)
      · exact hG k (List.mem_cons_of_mem _ hk) h
      · exact hnd.1 (h ▸ hk)
    · intro k hk
      simp only [List.map_append, List.map_cons, List.map_nil, List.mem_append,
        List.mem_singleton]
      rintro (h | h)
      · exact hD k (List.mem_cons_of_mem _ hk) h
      · exact hnd.1 (h ▸ hk)

theorem initDepGraph_eq (p : List (String × Provider))
    (hnd : (p.map Prod.fst).Nodup) :
    initDepGraph p =
      ⟨p.map (fun kv => (kv.1, [])), p.map (fun kv => (kv.1, (0 : Int)))⟩ := by
  have h := initDepGraph_eq_aux p [] [] hnd (by simp) (by simp)
  simpa [initDepGraph] using h

/-- Invariant of `buildDepGraph`'s outer fold after processing the
prefix `pre` of the provider entries. -/
def GGood (p pre : List (String × Provider)) (g : ProdiderDepsGraph) : Prop :=
  g.graph.map Prod.fst = p.map Prod.fst ∧
  (∀ k ∈ p.map Prod.fst, alookup g.graph k = some (depsSpec pre k)) ∧
  g.inDegree.map Prod.fst = p.map Prod.fst ∧
  (∀ kv ∈ p, alookup g.inDegree kv.1 =
    some (if kv.1 ∈ pre.map Prod.fst then ((injList kv.2).length : Int) else 0))

theorem depsSpec_append_entry (pre : List (String × Provider))
    (kv : String × Provider) (x : String) :
    depsSpec (pre ++ [kv]) x =
      depsSpec pre x ++ (if x ∈ injList kv.2 then [kv.1] else []) := by
  simp only [depsSpec, List.filter_append, List.map_append]
  congr 1
  by_cases h : x ∈ injList kv.2
  · simp [h]
  · simp [h]

/-- Full characterization of the inner `forEach` over one factory's
`inject` list: each dependency's dependent list gains the factory's key
once and the factory's in-degree ends at its `inject` length. -/
theorem bdgInner_fold_full (name : String) (p : List (String × Provider))
    (pre : List (String × Provider)) (key : String) (inj : List String)
    (hkeymem : key ∈ p.map Prod.fst)
    (hloc : ∀ d ∈ inj, d ∈ p.map Prod.fst)
    (hinjnd : inj.Nodup) :
    ∀ (t s : List String) (g : ProdiderDepsGraph),
      inj = s ++ t →
      g.graph.map Prod.fst = p.map Prod.fst →
      (∀ x ∈ p.map Prod.fst, alookup g.graph x =
        some (depsSpec pre x ++ if x ∈ s then [key] else [])) →
      g.inDegree.map Prod.fst = p.map Prod.fst →
      (∀ kv ∈ p, kv.1 ≠ key → alookup g.inDegree kv.1 =
        some (if kv.1 ∈ pre.map Prod.fst then ((injList kv.2).length : Int) else 0)) →
      alookup g.inDegree key = some ((s.length : Int)) →
      ∃ g', t.foldl (bdgInnerStep name key) (.ok g) = .ok g' ∧
        g'.graph.map Prod.fst = p.map Prod.fst ∧
        (∀ x ∈ p.map Prod.fst, alookup g'.graph x =
          some (depsSpec pre x ++ if x ∈ inj then [key] else [])) ∧
        g'.inDegree.map Prod.fst = p.map Prod.fst ∧
        (∀ kv ∈ p, kv.1 ≠ key → alookup g'.inDegree kv.1 =
          some (if kv.1 ∈ pre.map Prod.fst then ((injList kv.2).length : Int) else 0)) ∧
        alookup g'.inDegree key = some ((inj.length : Int)) := by
  intro t
  induction t with
  | nil =>
    intro s g hinj hg1 hg2 hg3 hg4 hg5
    rw [List.append_nil] at hinj
    subst hinj
    exact ⟨g, rfl, hg1, hg2, hg3, hg4, hg5⟩
  | cons d t' ih =>
    intro s g hinj hg1 hg2 hg3 hg4 hg5
    have hd_inj : d ∈ inj := by rw [hinj]; simp
    have hd_keys : d ∈ p.map Prod.fst := hloc d hd_inj
    have hds : d ∉ s := by
      rw [hinj] at hinjnd
      have := (List.nodup_append.mp hinjnd).2.2
      intro hc
      exact this hc (List.mem_cons_self d t')
    have hlook : alookup g.graph d = some (depsSpec pre d) := by
      have h := hg2 d hd_keys
      rw [if_neg hds, List.append_nil] at h
      exact h
    have hdeg : ((alookup g.inDegree key).getD 0) + 1 = ((s.length + 1 : Nat) : Int) := by
      rw [hg5]
      simp
    set g2 : ProdiderDepsGraph :=
      { graph := aupsert g.graph d (depsSpec pre d ++ [key]),
        inDegree :=
          aupsert g.inDegree key (((alookup g.inDegree key).getD 0) + 1) } with hg2def
    have hstep : bdgInnerStep name key (.ok g) d = .ok g2 := by
      rw [hg2def]
      simp [bdgInnerStep, hlook]
    have hinj' : inj = (s ++ [d]) ++ t' := by rw [hinj]; simp
    have h1' : g2.graph.map Prod.fst = p.map Prod.fst := by
      rw [hg2def]
      show (aupsert g.graph d _).map Prod.fst = _
      rw [aupsert_map_fst_of_mem _ _ _ (by rw [hg1]; exact hd_keys), hg1]
    have h2' : ∀ x ∈ p.map Prod.fst, alookup g2.graph x =
        some (depsSpec pre x ++ if x ∈ s ++ [d] then [key] else []) := by
      intro x hx
      by_cases hxd : x = d
      · subst hxd
        rw [hg2def]
        show alookup (aupsert g.graph x _) x = _
        rw [alookup_aupsert_self]
        rw [if_pos (by simp)]
      · rw [hg2def]
        show alookup (aupsert g.graph d _) x = _
        rw [alookup_aupsert_ne _ _ _ _ hxd, hg2 x hx]
        have : (x ∈ s ++ [d]) ↔ (x ∈ s) := by
          simp only [List.mem_append, List.mem_singleton]
          exact ⟨fun h => h.resolve_right hxd, Or.inl⟩
        by_cases hxs : x ∈ s
        · rw [if_pos hxs, if_pos (this.mpr hxs)]
        · rw [if_neg hxs, if_neg (fun hc => hxs (this.mp hc))]
    have h3' : g2.inDegree.map Prod.fst = p.map Prod.fst := by
      rw [hg2def]
      show (aupsert g.inDegree key _).map Prod.fst = _
      rw [aupsert_map_fst_of_mem _ _ _ (by rw [hg3]; exact hkeymem), hg3]
    have h4' : ∀ kv ∈ p, kv.1 ≠ key → alookup g2.inDegree kv.1 =
        some (if kv.1 ∈ pre.map Prod.fst then ((injList kv.2).length : Int) else 0) := by
      intro kv hkv hne
      rw [hg2def]
      show alookup (aupsert g.inDegree key _) kv.1 = _
      rw [alookup_aupsert_ne _ _ _ _ hne]
      exact hg4 kv hkv hne
    have h5' : alookup g2.inDegree key = some (((s ++ [d]).length : Nat) : Int) := by
      rw [hg2def]
      show alookup (aupsert g.inDegree key _) key = _
      rw [alookup_aupsert_self, hdeg]
      simp
    simp only [List.foldl_cons, hstep]
    exact ih (s ++ [d]) g2 hinj' h1' h2' h3' h4' h5'

/-- Full characterization of `buildDepGraph`'s outer fold under key
uniqueness, duplicate-free `inject` lists and locally resolvable
dependencies. -/
theorem bdgOuter_fold_full (name : String) (p : List (String × Provider))
    (hnd : (p.map Prod.fst).Nodup)
    (hloc : ∀ kv ∈ p, ∀ d ∈ injList kv.2, d ∈ p.map Prod.fst)
    (hinj : ∀ kv ∈ p, (injList kv.2).Nodup) :
    ∀ (suf pre : List (String × Provider)) (g : ProdiderDepsGraph),
      p = pre ++ suf → GGood p pre g →
      ∃ g', suf.foldl (bdgOuterStep name) (.ok g) = .ok g' ∧ GGood p (pre ++ suf) g' := by
  intro suf
  induction suf with
  | nil =>
    intro pre g hp hGG
    exact ⟨g, rfl, by rw [List.append_nil]; exact hGG⟩
  | cons kv suf' ih =>
    intro pre g hp hGG
    have hkvp : kv ∈ p := by rw [hp]; simp
    have hkeymem : kv.1 ∈ p.map Prod.fst := List.mem_map.mpr ⟨kv, hkvp, rfl⟩
    have hkeypre : kv.1 ∉ pre.map Prod.fst := by
      have hmap : p.map Prod.fst = pre.map Prod.fst ++ kv.1 :: suf'.map Prod.fst := by
        rw [hp]; simp
      rw [hmap] at hnd
      have hdisj := (List.nodup_append.mp hnd).2.2
      intro hc
      exact hdisj hc (List.mem_cons_self _ _)
    have hpremem : ∀ kv' ∈ p, kv'.1 ≠ kv.1 →
        (kv'.1 ∈ (pre ++ [kv]).map Prod.fst ↔ kv'.1 ∈ pre.map Prod.fst) := by
      intro kv' _ hne
      simp only [List.map_append, List.map_cons, List.map_nil, List.mem_append,
        List.mem_cons, List.not_mem_nil, or_false]
      exact ⟨fun h => h.resolve_right hne, Or.inl⟩
    have hifcong : ∀ kv' ∈ p, kv'.1 ≠ kv.1 →
        (if kv'.1 ∈ (pre ++ [kv]).map Prod.fst then ((injList kv'.2).length : Int) else 0) =
        (if kv'.1 ∈ pre.map Prod.fst then ((injList kv'.2).length : Int) else 0) := by
      intro kv' h hne
      by_cases hmem : kv'.1 ∈ pre.map Prod.fst
      · rw [if_pos hmem, if_pos ((hpremem kv' h hne).mpr hmem)]
      · rw [if_neg hmem, if_neg (fun hc => hmem ((hpremem kv' h hne).mp hc))]
    have hstep : ∃ g', bdgOuterStep name (.ok g) kv = .ok g' ∧
        GGood p (pre ++ [kv]) g' := by
      obtain ⟨hG1, hG2, hG3, hG4⟩ := hGG
      cases hkv2 : kv.2 with
      | factory inj fid =>
        have hinjeq : injList kv.2 = inj := by rw [hkv2]; rfl
        have hloc' : ∀ d ∈ inj, d ∈ p.map Prod.fst := by
          rw [← hinjeq]; exact hloc kv hkvp
        have hinjnd' : inj.Nodup := by rw [← hinjeq]; exact hinj kv hkvp
        have hinit2 : ∀ x ∈ p.map Prod.fst, alookup g.graph x =
            some (depsSpec pre x ++ if x ∈ ([] : List String) then [kv.1] else []) := by
          intro x hx
          rw [if_neg (List.not_mem_nil x), List.append_nil]
          exact hG2 x hx
        have hinit4 : ∀ kv' ∈ p, kv'.1 ≠ kv.1 → alookup g.inDegree kv'.1 =
            some (if kv'.1 ∈ pre.map Prod.fst then ((injList kv'.2).length : Int) else 0) := by
          intro kv' h _
          exact hG4 kv' h
        have hinit5 : alookup g.inDegree kv.1 = some ((([] : List String).length : Int)) := by
          have h := hG4 kv hkvp
          rw [if_neg hkeypre] at h
          simpa using h
        obtain ⟨g', hfold, hg1', hg2', hg3', hg4', hg5'⟩ :=
          bdgInner_fold_full name p pre kv.1 inj hkeymem hloc' hinjnd' inj [] g
            (by simp) hG1 hinit2 hG3 hinit4 hinit5
        refine ⟨g', ?_, ?_, ?_, ?_, ?_⟩
        · simp only [bdgOuterStep, hkv2]
          exact hfold
        · exact hg1'
        · intro k hk
          rw [hg2' k hk, depsSpec_append_entry, hinjeq]
        · exact hg3'
        · intro kv' hkv'
          by_cases hne : kv'.1 = kv.1
          · have hkv'eq : kv' = kv := mem_nodup_eq hnd hkv' hkvp hne
            subst hkv'eq
            rw [hne] at hg5' ⊢
            rw [hg5']
            rw [if_pos (by simp), hinjeq]
          · rw [hg4' kv' hkv' hne, hifcong kv' hkv' hne]
      | resolver rid =>
        have hinjeq : injList kv.2 = [] := by rw [hkv2]; rfl
        refine ⟨g, by simp [bdgOuterStep, hkv2], hG1, ?_, hG3, ?_⟩
        · intro k hk
          rw [hG2 k hk, depsSpec_append_entry, hinjeq]
          simp
        · intro kv' hkv'
          by_cases hne : kv'.1 = kv.1
          · have hkv'eq : kv' = kv := mem_nodup_eq hnd hkv' hkvp hne
            subst hkv'eq
            have h := hG4 kv' hkvp
            rw [if_neg (by rw [hne]; exact hkeypre)] at h
            rw [h, hinjeq]
            simp
          · rw [hG4 kv' hkv', hifcong kv' hkv' hne]
      | classProvider c =>
        have hinjeq : injList kv.2 = [] := by rw [hkv2]; rfl
        refine ⟨g, by simp [bdgOuterStep, hkv2], hG1, ?_, hG3, ?_⟩
        · intro k hk
          rw [hG2 k hk, depsSpec_append_entry, hinjeq]
          simp
        · intro kv' hkv'
          by_cases hne : kv'.1 = kv.1
          · have hkv'eq : kv' = kv := mem_nodup_eq hnd hkv' hkvp hne
            subst hkv'eq
            have h := hG4 kv' hkvp
            rw [if_neg (by rw [hne]; exact hkeypre)] at h
            rw [h, hinjeq]
            simp
          · rw [hG4 kv' hkv', hifcong kv' hkv' hne]
      | classCtor c =>
        have hinjeq : injList kv.2 = [] := by rw [hkv2]; rfl
        refine ⟨g, by simp [bdgOuterStep, hkv2], hG1, ?_, hG3, ?_⟩
        · intro k hk
          rw [hG2 k hk, depsSpec_append_entry, hinjeq]
          simp
        · intro kv' hkv'
          by_cases hne : kv'.1 = kv.1
          · have hkv'eq : kv' = kv := mem_nodup_eq hnd hkv' hkvp hne
            subst hkv'eq
            have h := hG4 kv' hkvp
            rw [if_neg (by rw [hne]; exact hkeypre)] at h
            rw [h, hinjeq]
            simp
          · rw [hG4 kv' hkv', hifcong kv' hkv' hne]
    obtain ⟨g', hstep, hGG'⟩ := hstep
    obtain ⟨g'', hfold, hGG''⟩ := ih (pre ++ [kv]) g' (by rw [hp]; simp) hGG'
    refine ⟨g'', ?_, ?_⟩
    · simp only [List.foldl_cons, hstep]
      exact hfold
    · have : pre ++ kv :: suf' = (pre ++ [kv]) ++ suf' := by simp
      rw [this]
      exact hGG''

/-- The dependency graph the source builds, in closed form: each key maps
to its dependents in declaration order, and each key's in-degree is the
length of its own `inject` list. -/
theorem buildDepGraph_full (name : String) (p : List (String × Provider))
    (hnd : (p.map Prod.fst).Nodup)
    (hloc : ∀ kv ∈ p, ∀ d ∈ injList kv.2, d ∈ p.map Prod.fst)
    (hinj : ∀ kv ∈ p, (injList kv.2).Nodup) :
    buildDepGraph name p (initDepGraph p) =
      .ok ⟨p.map (fun kv => (kv.1, depsSpec p kv.1)),
        p.map (fun kv => (kv.1, ((injList kv.2).length : Int)))⟩ := by
  have hinit : GGood p [] (initDepGraph p) := by
    rw [initDepGraph_eq p hnd]
    refine ⟨map_fst_of_keyed_map p _, ?_, map_fst_of_keyed_map p _, ?_⟩
    · intro k hk
      obtain ⟨kv, hkv, hfst⟩ := List.mem_map.mp hk
      rw [← hfst, alookup_keyed_map hnd _ hkv]
      rfl
    · intro kv hkv
      rw [alookup_keyed_map hnd _ hkv, if_neg (by simp)]
  obtain ⟨g', hfold, hGG⟩ :=
    bdgOuter_fold_full name p hnd hloc hinj p [] (initDepGraph p) (by simp) hinit
  rw [buildDepGraph, hfold]
  have hGG' : GGood p p g' := by
    have h : ([] : List (String × Provider)) ++ p = p := by simp
    rw [h] at hGG
    exact hGG
  obtain ⟨hG1, hG2, hG3, hG4⟩ := hGG'
  have hgraph : g'.graph = p.map (fun kv => (kv.1, depsSpec p kv.1)) := by
    apply assoc_ext
    · rw [hG1, map_fst_of_keyed_map]
    · rw [hG1]; exact hnd
    · intro k
      by_cases hk : k ∈ p.map Prod.fst
      · obtain ⟨kv, hkv, hfst⟩ := List.mem_map.mp hk
        rw [hG2 k hk, ← hfst, alookup_keyed_map hnd _ hkv]
      · rw [(alookup_eq_none _ _).mpr (by rw [hG1]; exact hk),
          (alookup_eq_none _ _).mpr (by rw [map_fst_of_keyed_map]; exact hk)]
  have hdeg : g'.inDegree = p.map (fun kv => (kv.1, ((injList kv.2).length : Int))) := by
    apply assoc_ext
    · rw [hG3, map_fst_of_keyed_map]
    · rw [hG3]; exact hnd
    · intro k
      by_cases hk : k ∈ p.map Prod.fst
      · obtain ⟨kv, hkv, hfst⟩ := List.mem_map.mp hk
        have h := hG4 kv hkv
        rw [if_pos (by rw [hfst]; exact hk)] at h
        rw [← hfst, h, alookup_keyed_map hnd _ hkv]
      · rw [(alookup_eq_none _ _).mpr (by rw [hG3]; exact hk),
          (alookup_eq_none _ _).mpr (by rw [map_fst_of_keyed_map]; exact hk)]
  cases g' with
  | mk gg gi =>
    simp only at hgraph hdeg
    rw [hgraph, hdeg]

/-- The initial queue the source seeds: the keys whose providers declare
no dependencies, in declaration order. -/
theorem initQueue_spec (p : List (String × Provider)) :
    initQueue (p.map (fun kv => (kv.1, ((injList kv.2).length : Int)))) =
      (p.filter (fun kv => decide (injList kv.2 = []))).map Prod.fst := by
  rw [initQueue, List.filter_map]
  rw [List.map_map]
  have hpred : ∀ kv : String × Provider,
      ((fun kv' : String × Int => decide (kv'.2 = 0)) ∘
        (fun kv => (kv.1, ((injList kv.2).length : Int)))) kv =
      decide (injList kv.2 = []) := by
    intro kv
    simp only [Function.comp_apply]
    by_cases h : injList kv.2 = []
    · simp [h]
    · have hlen : (injList kv.2).length ≠ 0 :=
        fun hc => h (List.length_eq_zero.mp hc)
      simp only [decide_eq_decide]
      constructor
      · intro hc
        exact absurd (by exact_mod_cast hc) hlen
      · intro hc
        exact absurd hc h
  rw [List.filter_congr (fun kv _ => hpred kv)]
  rfl

/-! ## Correctness of the topological sort (claims C1, C4) -/

/-- Number of a key's declared dependencies not yet placed in `res` —
the value the sort keeps in its in-degree map. -/
def pendingDeg (p : List (String × Provider)) (res : List String) (k : String) : Nat :=
  ((injOf p k).filter (fun x => decide (x ∉ res))).length

/-- Sum of all pending degrees; together with the queue length it bounds
the number of remaining recursion steps. -/
def pendingTotal (p : List (String × Provider)) (res : List String) : Nat :=
  (p.map (fun kv => ((injList kv.2).filter (fun x => decide (x ∉ res))).length)).sum

/-- Effect of the in-degree decrement fold over a duplicate-free
dependent list. -/
theorem foldDecr_lookup :
    ∀ (deps : List String) (d : List (String × Int)) (k : String),
      deps.Nodup → (∀ x ∈ deps, ∃ v, alookup d x = some v) →
      alookup
        (deps.foldl (fun acc curr => aupsert acc curr (((alookup acc curr).getD 0) - 1)) d)
        k =
        if k ∈ deps then (alookup d k).map (fun v => v - 1) else alookup d k := by
  intro deps
  induction deps with
  | nil => intro d k _ _; simp
  | cons x tl ih =>
    intro d k hnd hex
    obtain ⟨vx, hvx⟩ := hex x (List.mem_cons_self x tl)
    simp only [List.foldl_cons]
    have hacc : ∀ y ∈ tl, ∃ v,
        alookup (aupsert d x (((alookup d x).getD 0) - 1)) y = some v := by
      intro y hy
      have hyx : y ≠ x := fun hh => (List.nodup_cons.mp hnd).1 (hh ▸ hy)
      rw [alookup_aupsert_ne _ _ _ _ hyx]
      exact hex y (List.mem_cons_of_mem x hy)
    rw [ih _ k (List.nodup_cons.mp hnd).2 hacc]
    by_cases hk : k = x
    · have hknotl : k ∉ tl := by
        rw [hk]
        exact (List.nodup_cons.mp hnd).1
      rw [if_neg hknotl, if_pos (by rw [hk]; exact List.mem_cons_self x tl)]
      rw [hk, alookup_aupsert_self, hvx]
      simp
    · by_cases hktl : k ∈ tl
      · rw [if_pos hktl, if_pos (List.mem_cons_of_mem x hktl)]
        rw [alookup_aupsert_ne _ _ _ _ hk]
      · rw [if_neg hktl, if_neg (by simp [hk, hktl])]
        rw [alookup_aupsert_ne _ _ _ _ hk]

/-- Appending a fresh element to `res` removes one unit of pending count
from a duplicate-free list containing `c`, none otherwise. -/
theorem filter_notmem_concat (l : List String) (res : List String) (c : String)
    (hnd : l.Nodup) (hc : c ∉ res) :
    (l.filter (fun x => decide (x ∉ res))).length =
      (l.filter (fun x => decide (x ∉ res ++ [c]))).length +
        (if c ∈ l then 1 else 0) := by
  induction l with
  | nil => simp
  | cons y tl ih =>
    have hndtl := (List.nodup_cons.mp hnd).2
    by_cases hyc : y = c
    · subst hyc
      have hynotl : y ∉ tl := (List.nodup_cons.mp hnd).1
      have htl_eq : tl.filter (fun x => decide (x ∉ res ++ [y])) =
          tl.filter (fun x => decide (x ∉ res)) := by
        apply List.filter_congr
        intro x hx
        have hxy : x ≠ y := fun hh => hynotl (hh ▸ hx)
        simp [hxy]
      simp only [List.filter_cons]
      rw [if_pos (by simpa using hc)]
      rw [if_neg (by simp)]
      rw [htl_eq, if_pos (List.mem_cons_self y tl)]
      simp
    · simp only [List.filter_cons]
      have hcond : (decide (y ∉ res ++ [c])) = (decide (y ∉ res)) := by
        simp [hyc]
      rw [hcond]
      have := ih hndtl
      have hcy : c ≠ y := fun hh => hyc hh.symm
      have hmemiff : (c ∈ y :: tl) ↔ (c ∈ tl) := by
        simp [hcy]
      by_cases hy : y ∉ res
      · rw [if_pos (by simpa using hy), if_pos (by simpa using hy)]
        simp only [List.length_cons]
        by_cases hctl : c ∈ tl
        · rw [if_pos (hmemiff.mpr hctl)]
          rw [if_pos hctl] at this
          omega
        · rw [if_neg (fun hh => hctl (hmemiff.mp hh))]
          rw [if_neg hctl] at this
          omega
      · rw [if_neg (by simpa using hy), if_neg (by simpa using hy)]
        by_cases hctl : c ∈ tl
        · rw [if_pos (hmemiff.mpr hctl)]
          rw [if_pos hctl] at this
          omega
        · rw [if_neg (fun hh => hctl (hmemiff.mp hh))]
          rw [if_neg hctl] at this
          omega

theorem pendingDeg_concat (p : List (String × Provider)) (res : List String)
    (c k : String) (hnd : (injOf p k).Nodup) (hc : c ∉ res) :
    pendingDeg p res k =
      pendingDeg p (res ++ [c]) k + (if c ∈ injOf p k then 1 else 0) :=
  filter_notmem_concat (injOf p k) res c hnd hc

theorem pendingDeg_zero_iff (p : List (String × Provider)) (res : List String)
    (k : String) : pendingDeg p res k = 0 ↔ ∀ x ∈ injOf p k, x ∈ res := by
  rw [pendingDeg, List.length_eq_zero, List.filter_eq_nil_iff]
  constructor
  · intro h x hx
    have := h x hx
    simpa using this
  · intro h x hx
    simpa using h x hx

theorem pendingTotal_concat (p : List (String × Provider)) (res : List String)
    (c : String) (hinj : ∀ kv ∈ p, (injList kv.2).Nodup) (hc : c ∉ res) :
    pendingTotal p res = pendingTotal p (res ++ [c]) + (depsSpec p c).length := by
  induction p with
  | nil => simp [pendingTotal, depsSpec]
  | cons kv tl ih =>
    have hkv := hinj kv (List.mem_cons_self kv tl)
    have htl := ih (fun kv' h => hinj kv' (List.mem_cons_of_mem kv h))
    simp only [pendingTotal, List.map_cons, List.sum_cons] at htl ⊢
    have hdep : (depsSpec (kv :: tl) c).length =
        (if c ∈ injList kv.2 then 1 else 0) + (depsSpec tl c).length := by
      simp only [depsSpec, List.filter_cons]
      by_cases h : c ∈ injList kv.2
      · rw [if_pos (by simpa using h), if_pos h]
        simp [Nat.add_comm]
      · rw [if_neg (by simpa using h), if_neg h]
        simp
    have hentry := filter_notmem_concat (injList kv.2) res c hkv hc
    rw [hdep]
    omega

/-- Every nonempty list has an element of minimal rank. -/
theorem exists_rank_min (r : String → Nat) :
    ∀ (S : List String), S ≠ [] → ∃ m ∈ S, ∀ y ∈ S, r m ≤ r y := by
  intro S
  induction S with
  | nil => intro h; exact absurd rfl h
  | cons x tl ih =>
    intro _
    cases tl with
    | nil =>
      exact ⟨x, List.mem_cons_self x [], by
        intro y hy
        rcases List.mem_cons.mp hy with h | h
        · rw [h]
        · simp at h⟩
    | cons z tl' =>
      obtain ⟨m', hm', hmin⟩ := ih (by simp)
      by_cases hr : r x ≤ r m'
      · refine ⟨x, List.mem_cons_self _ _, ?_⟩
        intro y hy
        rcases List.mem_cons.mp hy with h | h
        · rw [h]
        · exact Nat.le_trans hr (hmin y h)
      · refine ⟨m', List.mem_cons_of_mem x hm', ?_⟩
        intro y hy
        rcases List.mem_cons.mp hy with h | h
        · rw [h]
          exact Nat.le_of_lt (Nat.lt_of_not_le hr)
        · exact hmin y h

theorem Before.mem_left {l : List String} {a b : String} (h : Before l a b) :
    a ∈ l := by
  obtain ⟨i, _, _, ha, _⟩ := h
  exact List.getElem?_mem ha

/-- Invariant of the sort's recursion: `res` is the output so far, `q`
the queue, `d` the current in-degree map. -/
def SortInv (p : List (String × Provider)) (d : List (String × Int))
    (q res : List String) : Prop :=
  (res ++ q).Nodup ∧
  (∀ x ∈ res, x ∈ p.map Prod.fst) ∧
  (∀ x ∈ q, x ∈ p.map Prod.fst) ∧
  (∀ k ∈ p.map Prod.fst, alookup d k = some ((pendingDeg p res k : Int))) ∧
  (∀ x ∈ q, ∀ dep ∈ injOf p x, dep ∈ res) ∧
  (∀ x ∈ res, ∀ dep ∈ injOf p x, Before res dep x) ∧
  (∀ k ∈ p.map Prod.fst, k ∉ res → k ∉ q → ∃ dep ∈ injOf p k, dep ∉ res)

/-- Main invariant argument for the source's Kahn-style sort: with
duplicate-free keys and `inject` lists, locally resolvable dependencies,
no empty-string key and an acyclic graph, the recursion ends with a
duplicate-free output containing every provider key exactly once, each
key strictly after all of its declared dependencies. -/
theorem sortTopo_spec (p : List (String × Provider))
    (g : List (String × List String))
    (hnd : (p.map Prod.fst).Nodup)
    (hloc : ∀ kv ∈ p, ∀ d ∈ injList kv.2, d ∈ p.map Prod.fst)
    (hinj : ∀ kv ∈ p, (injList kv.2).Nodup)
    (hg : ∀ c ∈ p.map Prod.fst, alookup g c = some (depsSpec p c))
    (hempty : "" ∉ p.map Prod.fst)
    (hacy : Acyclic p) :
    ∀ (fuel : Nat) (d : List (String × Int)) (q res : List String),
      SortInv p d q res →
      q.length + pendingTotal p res ≤ fuel →
      (sortProviderKeysTopologically g fuel d q res).Nodup ∧
      (∀ x, x ∈ sortProviderKeysTopologically g fuel d q res ↔
        x ∈ p.map Prod.fst ∨ x ∈ res) ∧
      (∀ x ∈ sortProviderKeysTopologically g fuel d q res,
        ∀ dep ∈ injOf p x, Before (sortProviderKeysTopologically g fuel d q res) dep x) := by
  have hloc' : ∀ k ∈ p.map Prod.fst, ∀ dep ∈ injOf p k, dep ∈ p.map Prod.fst := by
    intro k hk dep hdep
    obtain ⟨kv, hkv, hfst⟩ := List.mem_map.mp hk
    rw [← hfst, injOf_entry hnd hkv] at hdep
    exact hloc kv hkv dep hdep
  have hinj' : ∀ k ∈ p.map Prod.fst, (injOf p k).Nodup := by
    intro k hk
    obtain ⟨kv, hkv, hfst⟩ := List.mem_map.mp hk
    rw [← hfst, injOf_entry hnd hkv]
    exact hinj kv hkv
  have hbase : ∀ (res : List String),
      res.Nodup →
      (∀ x ∈ res, x ∈ p.map Prod.fst) →
      (∀ x ∈ res, ∀ dep ∈ injOf p x, Before res dep x) →
      (∀ k ∈ p.map Prod.fst, k ∉ res → ∃ dep ∈ injOf p k, dep ∉ res) →
      res.Nodup ∧
      (∀ x, x ∈ res ↔ x ∈ p.map Prod.fst ∨ x ∈ res) ∧
      (∀ x ∈ res, ∀ dep ∈ injOf p x, Before res dep x) := by
    intro res hnodup hsub hord hpend
    have hcomplete : ∀ x ∈ p.map Prod.fst, x ∈ res := by
      by_contra hc
      push_neg at hc
      obtain ⟨x0, hx0, hx0r⟩ := hc
      obtain ⟨r, hr⟩ := hacy
      have hSne : (p.map Prod.fst).filter (fun k => decide (k ∉ res)) ≠ [] := by
        intro hnil
        have : x0 ∈ (p.map Prod.fst).filter (fun k => decide (k ∉ res)) :=
          List.mem_filter.mpr ⟨hx0, by simpa using hx0r⟩
        rw [hnil] at this
        exact List.not_mem_nil x0 this
      obtain ⟨m, hmS, hmin⟩ :=
        exists_rank_min r ((p.map Prod.fst).filter (fun k => decide (k ∉ res))) hSne
      have hmkeys := (List.mem_filter.mp hmS).1
      have hmres : m ∉ res := by simpa using (List.mem_filter.mp hmS).2
      obtain ⟨dep, hdep, hdepres⟩ := hpend m hmkeys hmres
      have hdepkeys : dep ∈ p.map Prod.fst := hloc' m hmkeys dep hdep
      have hdepS : dep ∈ (p.map Prod.fst).filter (fun k => decide (k ∉ res)) :=
        List.mem_filter.mpr ⟨hdepkeys, by simpa using hdepres⟩
      have h1 : r dep < r m := hr m dep hdep
      have h2 : r m ≤ r dep := hmin dep hdepS
      omega
    refine ⟨hnodup, ?_, hord⟩
    intro x
    constructor
    · intro h; exact Or.inr h
    · rintro (h | h)
      · exact hcomplete x h
      · exact h
  intro fuel
  induction fuel with
  | zero =>
    intro d q res hinv hmeas
    have hq : q = [] := by
      cases q with
      | nil => rfl
      | cons a b => simp at hmeas
    subst hq
    obtain ⟨h1, h2, _, _, _, h6, h7⟩ := hinv
    rw [List.append_nil] at h1
    exact hbase res h1 h2 h6 (fun k hk hkr => h7 k hk hkr (List.not_mem_nil k))
  | succ fuel ih =>
    intro d q res hinv hmeas
    obtain ⟨hIn, hIres, hIq, hIdeg, hIready, hIord, hIpend⟩ := hinv
    cases q with
    | nil =>
      have h1 : res.Nodup := by rw [← List.append_nil res]; exact hIn
      exact hbase res h1 hIres hIord
        (fun k hk hkr => hIpend k hk hkr (List.not_mem_nil k))
    | cons current rest =>
      have hcurkeys : current ∈ p.map Prod.fst :=
        hIq current (List.mem_cons_self current rest)
      have hcne : current ≠ "" := fun h => hempty (h ▸ hcurkeys)
      have hcurres : current ∉ res := by
        intro hc
        have := List.disjoint_of_nodup_append hIn
        exact this hc (List.mem_cons_self current rest)
      have hcurrest : current ∉ rest := by
        have := (List.nodup_append.mp hIn).2.1
        exact (List.nodup_cons.mp this).1
      have hgd : (alookup g current).getD [] = depsSpec p current := by
        rw [hg current hcurkeys]
        rfl
      set deps := depsSpec p current with hdeps
      set d2 := deps.foldl
        (fun acc curr => aupsert acc curr (((alookup acc curr).getD 0) - 1)) d with hd2
      set newZeros :=
        deps.filter (fun dep => decide (((alookup d2 dep).getD 0) = 0)) with hnz
      have hunfold : sortProviderKeysTopologically g (fuel + 1) d (current :: rest) res =
          sortProviderKeysTopologically g fuel d2 (rest ++ newZeros) (res ++ [current]) := by
        simp only [sortProviderKeysTopologically, if_neg hcne, hgd, ← hd2, ← hnz]
      have hdepsnd : deps.Nodup := depsSpec_nodup hnd current
      have hdepskeys : ∀ x ∈ deps, x ∈ p.map Prod.fst :=
        fun x hx => depsSpec_subset current x hx
      have hdepsmem : ∀ x, x ∈ deps ↔ x ∈ p.map Prod.fst ∧ current ∈ injOf p x :=
        fun x => mem_depsSpec_nodup hnd current x
      have hex : ∀ x ∈ deps, ∃ v, alookup d x = some v :=
        fun x hx => ⟨_, hIdeg x (hdepskeys x hx)⟩
      have hd2look : ∀ k, alookup d2 k =
          if k ∈ deps then (alookup d k).map (fun v => v - 1) else alookup d k :=
        fun k => foldDecr_lookup deps d k hdepsnd hex
      have hdeg' : ∀ k ∈ p.map Prod.fst,
          alookup d2 k = some ((pendingDeg p (res ++ [current]) k : Int)) := by
        intro k hk
        rw [hd2look k]
        by_cases hkdeps : k ∈ deps
        · rw [if_pos hkdeps, hIdeg k hk]
          have hcink : current ∈ injOf p k := ((hdepsmem k).mp hkdeps).2
          have hconcat := pendingDeg_concat p res current k (hinj' k hk) hcurres
          rw [if_pos hcink] at hconcat
          show some (((pendingDeg p res k : Int)) - 1) = _
          congr 1
          omega
        · rw [if_neg hkdeps, hIdeg k hk]
          have hcnotink : current ∉ injOf p k :=
            fun hc => hkdeps ((hdepsmem k).mpr ⟨hk, hc⟩)
          have hconcat := pendingDeg_concat p res current k (hinj' k hk) hcurres
          rw [if_neg hcnotink] at hconcat
          congr 1
          omega
      have hnzmem : ∀ x, x ∈ newZeros ↔
          x ∈ deps ∧ ∀ dep ∈ injOf p x, dep ∈ res ++ [current] := by
        intro x
        rw [hnz, List.mem_filter]
        constructor
        · rintro ⟨h1, h2⟩
          refine ⟨h1, ?_⟩
          rw [hdeg' x (hdepskeys x h1)] at h2
          have : pendingDeg p (res ++ [current]) x = 0 := by
            simpa using h2
          exact (pendingDeg_zero_iff p _ x).mp this
        · rintro ⟨h1, h2⟩
          refine ⟨h1, ?_⟩
          rw [hdeg' x (hdepskeys x h1)]
          have : pendingDeg p (res ++ [current]) x = 0 :=
            (pendingDeg_zero_iff p _ x).mpr h2
          simp [this]
      have hnznotres : ∀ x ∈ newZeros, x ∉ res := by
        intro x hx hc
        have hcink : current ∈ injOf p x :=
          ((hdepsmem x).mp ((hnzmem x).mp hx).1).2
        have := Before.mem_left (hIord x hc current hcink)
        exact hcurres this
      have hnznotcur : ∀ x ∈ newZeros, x ≠ current := by
        intro x hx hc
        have hcink : current ∈ injOf p x :=
          ((hdepsmem x).mp ((hnzmem x).mp hx).1).2
        rw [hc] at hcink
        have := hIready current (List.mem_cons_self current rest) current hcink
        exact hcurres this
      have hnznotrest : ∀ x ∈ newZeros, x ∉ rest := by
        intro x hx hc
        have hcink : current ∈ injOf p x :=
          ((hdepsmem x).mp ((hnzmem x).mp hx).1).2
        have := hIready x (List.mem_cons_of_mem current hc) current hcink
        exact hcurres this
      have hnznd : newZeros.Nodup := by
        rw [hnz]
        exact hdepsnd.sublist (List.filter_sublist deps)
      have hIn' : ((res ++ [current]) ++ (rest ++ newZeros)).Nodup := by
        have h0 := hIn
        rw [List.nodup_append] at h0
        obtain ⟨hres, hcr, hdisj⟩ := h0
        obtain ⟨hcnotrest, hrest⟩ := List.nodup_cons.mp hcr
        rw [List.nodup_append]
        refine ⟨?_, ?_, ?_⟩
        · rw [List.nodup_append]
          refine ⟨hres, List.nodup_singleton _, ?_⟩
          intro a ha hc
          rw [List.mem_singleton] at hc
          exact hcurres (hc ▸ ha)
        · rw [List.nodup_append]
          exact ⟨hrest, hnznd, fun a ha hc => hnznotrest a hc ha⟩
        · intro a ha hc
          rcases List.mem_append.mp ha with h | h
          · rcases List.mem_append.mp hc with h2 | h2
            · exact hdisj h (List.mem_cons_of_mem _ h2)
            · exact hnznotres a h2 h
          · rw [List.mem_singleton] at h
            subst h
            rcases List.mem_append.mp hc with h2 | h2
            · exact hcnotrest h2
            · exact hnznotcur a h2 rfl
      have hready' : ∀ x ∈ rest ++ newZeros, ∀ dep ∈ injOf p x,
          dep ∈ res ++ [current] := by
        intro x hx dep hdep
        rcases List.mem_append.mp hx with h | h
        · have := hIready x (List.mem_cons_of_mem current h) dep hdep
          exact List.mem_append.mpr (Or.inl this)
        · exact ((hnzmem x).mp h).2 dep hdep
      have hord' : ∀ x ∈ res ++ [current], ∀ dep ∈ injOf p x,
          Before (res ++ [current]) dep x := by
        intro x hx dep hdep
        rcases List.mem_append.mp hx with h | h
        · exact (hIord x h dep hdep).append_right
        · have hxc : x = current := by simpa using h
          subst hxc
          have : dep ∈ res := hIready x (List.mem_cons_self x rest) dep hdep
          exact Before.mem_concat this
      have hpend' : ∀ k ∈ p.map Prod.fst, k ∉ res ++ [current] →
          k ∉ rest ++ newZeros → ∃ dep ∈ injOf p k, dep ∉ res ++ [current] := by
        intro k hk hkres hkq
        have hkres0 : k ∉ res := fun hc => hkres (List.mem_append.mpr (Or.inl hc))
        have hkcur : k ≠ current := fun hc => hkres (by rw [hc]; simp)
        have hkrest : k ∉ rest := fun hc => hkq (List.mem_append.mpr (Or.inl hc))
        have hknz : k ∉ newZeros := fun hc => hkq (List.mem_append.mpr (Or.inr hc))
        by_contra hc
        push_neg at hc
        have hall : ∀ dep ∈ injOf p k, dep ∈ res ++ [current] := hc
        obtain ⟨dep, hdep, hdepres⟩ := hIpend k hk hkres0 (by
          intro hq
          rcases List.mem_cons.mp hq with h | h
          · exact hkcur h
          · exact hkrest h)
        have hdepcur : dep = current := by
          have := hall dep hdep
          rcases List.mem_append.mp this with h | h
          · exact absurd h hdepres
          · simpa using h
        have hcink : current ∈ injOf p k := hdepcur ▸ hdep
        have hkdeps : k ∈ deps := (hdepsmem k).mpr ⟨hk, hcink⟩
        exact hknz ((hnzmem k).mpr ⟨hkdeps, hall⟩)
      have hmeas' : (rest ++ newZeros).length + pendingTotal p (res ++ [current]) ≤ fuel := by
        have hlen : newZeros.length ≤ deps.length := by
          rw [hnz]
          exact List.length_filter_le _ deps
        have hpt := pendingTotal_concat p res current hinj hcurres
        rw [← hdeps] at hpt
        simp only [List.length_append, List.length_cons] at hmeas ⊢
        omega
      obtain ⟨hc1, hc2, hc3⟩ := ih d2 (rest ++ newZeros) (res ++ [current])
        ⟨hIn', fun x hx => (by
          rcases List.mem_append.mp hx with h | h
          · exact hIres x h
          · rw [List.mem_singleton] at h
            rw [h]
            exact hcurkeys),
          fun x hx => (by
            rcases List.mem_append.mp hx with h | h
            · exact hIq x (List.mem_cons_of_mem current h)
            · exact hdepskeys x (List.mem_of_mem_filter h)),
          hdeg', hready', hord', hpend'⟩ hmeas'
      rw [hunfold]
      refine ⟨hc1, ?_, hc3⟩
      intro x
      rw [hc2 x]
      constructor
      · rintro (h | h)
        · exact Or.inl h
        · rcases List.mem_append.mp h with hh | hh
          · exact Or.inr hh
          · rw [List.mem_singleton] at hh
            rw [hh]
            exact Or.inl hcurkeys
      · rintro (h | h)
        · exact Or.inl h
        · exact Or.inr (List.mem_append.mpr (Or.inl h))

/-- Well-formedness of one module's provider map, as required for the
sort to be correct: unique keys (guaranteed by the JS object
representation), no empty-string key, duplicate-free `inject` lists,
locally resolvable `inject` keys, and an acyclic dependency graph. -/
def ProvidersValid (p : List (String × Provider)) : Prop :=
  (p.map Prod.fst).Nodup ∧
  "" ∉ p.map Prod.fst ∧
  (∀ kv ∈ p, (injList kv.2).Nodup) ∧
  (∀ kv ∈ p, ∀ d ∈ injList kv.2, d ∈ p.map Prod.fst) ∧
  Acyclic p

theorem totalInject_eq (p : List (String × Provider)) :
    totalInject p = (p.map (fun kv => (injList kv.2).length)).sum := by
  have hfun : (fun (n : Nat) (kv : String × Provider) =>
      match kv.2 with | Provider.factory inj _ => n + inj.length | _ => n) =
      fun n kv => n + (injList kv.2).length := by
    funext n kv
    cases kv.2 with
    | factory inj fid => rfl
    | resolver rid => simp [injList]
    | classProvider c => simp [injList]
    | classCtor c => simp [injList]
  have haux : ∀ (ps : List (String × Provider)) (n : Nat),
      ps.foldl (fun n kv => n + (injList kv.2).length) n =
        n + (ps.map (fun kv => (injList kv.2).length)).sum := by
    intro ps
    induction ps with
    | nil => intro n; simp
    | cons kv tl ih =>
      intro n
      simp only [List.foldl_cons, List.map_cons, List.sum_cons]
      rw [ih]
      omega
  rw [totalInject, hfun, haux]
  omega

theorem pendingTotal_nil (p : List (String × Provider)) :
    pendingTotal p [] = (p.map (fun kv => (injList kv.2).length)).sum := by
  rw [pendingTotal]
  congr 1
  apply List.map_congr_left
  intro kv _
  congr 1
  apply List.filter_eq_self.mpr
  intro x _
  simp

/-- The sorted key list the source computes, for a well-formed provider
map: a duplicate-free enumeration of exactly the provider keys, each
strictly after all of its declared dependencies. -/
theorem sortedKeysOf_ok (name : String) (p : List (String × Provider))
    (hv : ProvidersValid p) :
    ∃ sk, sortedKeysOf name p = .ok sk ∧ sk.Nodup ∧
      (∀ x, x ∈ sk ↔ x ∈ p.map Prod.fst) ∧
      (∀ x ∈ sk, ∀ dep ∈ injOf p x, Before sk dep x) := by
  obtain ⟨hnd, hempty, hinj, hloc, hacy⟩ := hv
  have hbd := buildDepGraph_full name p hnd hloc hinj
  have hq0 := initQueue_spec p
  set G : ProdiderDepsGraph :=
    ⟨p.map (fun kv => (kv.1, depsSpec p kv.1)),
      p.map (fun kv => (kv.1, ((injList kv.2).length : Int)))⟩ with hG
  have hg : ∀ c ∈ p.map Prod.fst, alookup G.graph c = some (depsSpec p c) := by
    intro c hc
    obtain ⟨kv, hkv, hfst⟩ := List.mem_map.mp hc
    rw [hG]
    show alookup (p.map (fun kv => (kv.1, depsSpec p kv.1))) c = _
    rw [← hfst, alookup_keyed_map hnd _ hkv]
  have hq0sub : ∀ x ∈ initQueue G.inDegree, x ∈ p.map Prod.fst := by
    intro x hx
    rw [hG] at hx
    rw [hq0] at hx
    obtain ⟨kv, hkv, hfst⟩ := List.mem_map.mp hx
    exact List.mem_map.mpr ⟨kv, List.mem_of_mem_filter hkv, hfst⟩
  have hq0inj : ∀ x ∈ initQueue G.inDegree, injOf p x = [] := by
    intro x hx
    rw [hG] at hx
    rw [hq0] at hx
    obtain ⟨kv, hkv, hfst⟩ := List.mem_map.mp hx
    have h1 := List.mem_filter.mp hkv
    rw [← hfst, injOf_entry hnd h1.1]
    simpa using h1.2
  have hq0nd : (initQueue G.inDegree).Nodup := by
    rw [hG]
    show (initQueue (p.map (fun kv => (kv.1, ((injList kv.2).length : Int))))).Nodup
    rw [hq0]
    exact hnd.sublist ((List.filter_sublist p).map Prod.fst)
  have hq0miss : ∀ k ∈ p.map Prod.fst, k ∉ initQueue G.inDegree →
      injOf p k ≠ [] := by
    intro k hk hknq hinjnil
    apply hknq
    obtain ⟨kv, hkv, hfst⟩ := List.mem_map.mp hk
    rw [hG]
    show k ∈ initQueue (p.map (fun kv => (kv.1, ((injList kv.2).length : Int))))
    rw [hq0]
    refine List.mem_map.mpr ⟨kv, List.mem_filter.mpr ⟨hkv, ?_⟩, hfst⟩
    rw [← hfst, injOf_entry hnd hkv] at hinjnil
    simpa using hinjnil
  have hinv : SortInv p G.inDegree (initQueue G.inDegree) [] := by
    refine ⟨by simpa using hq0nd, by simp, hq0sub, ?_, ?_, by simp, ?_⟩
    · intro k hk
      obtain ⟨kv, hkv, hfst⟩ := List.mem_map.mp hk
      rw [hG]
      show alookup (p.map (fun kv => (kv.1, ((injList kv.2).length : Int)))) k = _
      rw [← hfst, alookup_keyed_map hnd _ hkv]
      congr 1
      have : pendingDeg p [] kv.1 = (injOf p kv.1).length := by
        rw [pendingDeg]
        congr 1
        apply List.filter_eq_self.mpr
        intro x _
        simp
      rw [this, injOf_entry hnd hkv]
    · intro x hx dep hdep
      rw [hq0inj x hx] at hdep
      exact absurd hdep (List.not_mem_nil dep)
    · intro k hk _ hknq
      have hne := hq0miss k hk hknq
      obtain ⟨dep, hdep⟩ := List.exists_mem_of_ne_nil _ hne
      exact ⟨dep, hdep, List.not_mem_nil dep⟩
  have hmeas : (initQueue G.inDegree).length + pendingTotal p [] ≤ sortFuel p := by
    have h1 : (initQueue G.inDegree).length ≤ p.length := by
      rw [hG]
      show (initQueue (p.map (fun kv => (kv.1, ((injList kv.2).length : Int))))).length ≤ _
      rw [hq0, List.length_map]
      exact List.length_filter_le _ p
    have h2 : pendingTotal p [] = totalInject p := by
      rw [pendingTotal_nil, totalInject_eq]
    rw [sortFuel, h2]
    omega
  obtain ⟨hc1, hc2, hc3⟩ := sortTopo_spec p G.graph hnd hloc hinj hg hempty hacy
    (sortFuel p) G.inDegree (initQueue G.inDegree) [] hinv hmeas
  refine ⟨_, ?_, hc1, ?_, hc3⟩
  · rw [sortedKeysOf, depsGraphOf, hbd]
    rfl
  · intro x
    rw [hc2 x]
    simp

/-- The final `reduce` of `sortProvidersByDependencies` rebuilds the
provider entries in sorted-key order. -/
theorem rebuild_spec (p : List (String × Provider)) :
    ∀ (sk : List String) (acc : List (String × Provider)),
      sk.Nodup → (∀ k ∈ sk, k ∉ acc.map Prod.fst) →
      (∀ k ∈ sk, ∃ pr, alookup p k = some pr) →
      ∃ tail,
        sk.foldl
          (fun acc key =>
            match alookup p key with
            | some provider => aupsert acc key provider
            | none => acc) acc = acc ++ tail ∧
        tail.map Prod.fst = sk ∧ (∀ kv ∈ tail, alookup p kv.1 = some kv.2) := by
  intro sk
  induction sk with
  | nil => intro acc _ _ _; exact ⟨[], by simp, rfl, by simp⟩
  | cons k rest ih =>
    intro acc hnd hfresh hex
    obtain ⟨pr, hpr⟩ := hex k (List.mem_cons_self k rest)
    have hkacc : k ∉ acc.map Prod.fst := hfresh k (List.mem_cons_self k rest)
    have hstep : (match alookup p k with
        | some provider => aupsert acc k provider
        | none => acc) = acc ++ [(k, pr)] := by
      rw [hpr]
      exact aupsert_fresh acc k pr hkacc
    obtain ⟨tail, h1, h2, h3⟩ := ih (acc ++ [(k, pr)]) (List.nodup_cons.mp hnd).2
      (by
        intro k' hk'
        simp only [List.map_append, List.map_cons, List.map_nil, List.mem_append,
          List.mem_singleton]
        rintro (h | h)
        · exact hfresh k' (List.mem_cons_of_mem k hk') h
        · exact (List.nodup_cons.mp hnd).1 (h ▸ hk'))
      (fun k' hk' => hex k' (List.mem_cons_of_mem k hk'))
    refine ⟨(k, pr) :: tail, ?_, ?_, ?_⟩
    · simp only [List.foldl_cons, hstep, h1]
      simp
    · simp [h2]
    · intro kv hkv
      rcases List.mem_cons.mp hkv with h | h
      · rw [h]
        exact hpr
      · exact h3 kv h

/-- `sortProvidersByDependencies` on a well-formed provider map: no
error, the result's keys enumerate exactly the provider keys without
duplicates, every entry is a genuine provider entry, and every entry's
declared dependencies appear strictly earlier. -/
theorem sortProviders_ok (name : String) (p : List (String × Provider))
    (hv : ProvidersValid p) :
    ∃ sorted, sortProvidersByDependencies name p = .ok sorted ∧
      (sorted.map Prod.fst).Nodup ∧
      (∀ x, x ∈ sorted.map Prod.fst ↔ x ∈ p.map Prod.fst) ∧
      (∀ kv ∈ sorted, alookup p kv.1 = some kv.2) ∧
      (∀ l1 kv l2, sorted = l1 ++ kv :: l2 →
        ∀ dep ∈ injList kv.2, dep ∈ l1.map Prod.fst) := by
  obtain ⟨sk, hsk, hsknd, hskmem, hskord⟩ := sortedKeysOf_ok name p hv
  have hlen : sk.length = (p.map Prod.fst).length := by
    have h1 : ∀ x ∈ sk, x ∈ p.map Prod.fst := fun x hx => (hskmem x).mp hx
    have h2 : ∀ x ∈ p.map Prod.fst, x ∈ sk := fun x hx => (hskmem x).mpr hx
    have hperm : sk.Perm (p.map Prod.fst) := by
      apply List.perm_of_nodup_nodup_toFinset_eq hsknd hv.1
      apply Finset.ext
      intro a
      simp only [List.mem_toFinset]
      exact hskmem a
    exact hperm.length_eq
  have hcycle : ensureNoCyclicDependencies name p sk = .ok () := by
    rw [ensureNoCyclicDependencies]
    rw [if_neg (by simp [hlen])]
  obtain ⟨tail, h1, h2, h3⟩ := rebuild_spec p sk [] hsknd (by simp)
    (fun k hk => (alookup_isSome p k).mpr ((hskmem k).mp hk))
  refine ⟨tail, ?_, ?_, ?_, h3, ?_⟩
  · rw [sortProvidersByDependencies]
    split
    · rename_i e he
      rw [hsk] at he
      exact absurd he (by simp)
    · rename_i sortedKeys he
      rw [hsk] at he
      injection he with he'
      subst he'
      split
      · rename_i e hce
        rw [hcycle] at hce
        exact absurd hce (by simp)
      · exact congrArg Except.ok (by simpa using h1)
  · rw [h2]
    exact hsknd
  · intro x
    rw [h2]
    exact hskmem x
  · intro l1 kv l2 hsplit dep hdep
    have hkvtail : kv ∈ tail := by rw [hsplit]; simp
    have hinjeq : injOf p kv.1 = injList kv.2 := by
      rw [injOf, h3 kv hkvtail]
    have hkv1sk : kv.1 ∈ sk := by
      rw [← h2]
      exact List.mem_map.mpr ⟨kv, hkvtail, rfl⟩
    have hbefore : Before sk dep kv.1 := by
      apply hskord kv.1 hkv1sk
      rw [hinjeq]
      exact hdep
    have hsplit' : sk = l1.map Prod.fst ++ kv.1 :: l2.map Prod.fst := by
      rw [← h2, hsplit]
      simp
    exact Before.mem_left_of_split hsknd hbefore hsplit'

/-- A rank strictly increasing along every entry's inject edges witnesses
acyclicity. -/
theorem acyclic_of_entries (p : List (String × Provider)) (r : String → Nat)
    (h : ∀ kv ∈ p, ∀ d ∈ injList kv.2, r d < r kv.1) : Acyclic p := by
  refine ⟨r, ?_⟩
  intro k d hd
  rw [injOf] at hd
  cases halk : alookup p k with
  | none => rw [halk] at hd; simp at hd
  | some pr =>
    rw [halk] at hd
    exact h (k, pr) (alookup_mem halk) d hd

/-- C1 counterexample: two acyclic modules on which the sort does not
return an ordering of the provider keys.  `dupM`'s factory injects the
key `a` twice, so `b` enters the queue twice and the sorted result
`[a, b, b]` repeats a key, making the cycle check throw a circular error
listing no keys at all; `emptyM`'s provider key is the empty string, on
which the sort's falsy-head check stops immediately, yielding an empty
result and a circular error naming the empty key — both despite rank
functions witnessing acyclicity. -/
theorem C1_counterexample :
    Acyclic dupM.providers ∧
    sortedKeysOf "MDup" dupM.providers = .ok ["a", "b", "b"] ∧
    ¬ (["a", "b", "b"] : List String).Nodup ∧
    sortProvidersByDependencies "MDup" dupM.providers =
      .error (.circular "MDup" []) ∧
    Acyclic emptyM.providers ∧
    sortedKeysOf "ME" emptyM.providers = .ok [] ∧
    sortProvidersByDependencies "ME" emptyM.providers =
      .error (.circular "ME" [""]) := by
  refine ⟨?_, by decide, by decide, by decide, ?_, by decide, by decide⟩
  · exact acyclic_of_entries dupM.providers
      (fun k => if k = "b" then 1 else 0) (by decide)
  · exact acyclic_of_entries emptyM.providers (fun _ => 0) (by decide)

/-- C1 (amended: provider keys are distinct and nonempty and no inject
list repeats a key): for every module whose providers have pairwise
distinct, nonempty keys, whose factory inject lists are duplicate-free
and local, and whose dependency graph is acyclic, the topological sort
returns a permutation of the provider keys in which every key appears
strictly after every key of its inject list; the initial queue is the
declaration-order list of keys with an empty inject list (exactly those
of in-degree 0), and each sort step appends the newly in-degree-0
dependents of the popped key to the tail of the queue. -/
theorem C1_theorem :
    (∀ (name : String) (p : List (String × Provider)),
      ProvidersValid p →
      ∃ sk, sortedKeysOf name p = .ok sk ∧
        sk.Perm (p.map Prod.fst) ∧
        ∀ x ∈ sk, ∀ dep ∈ injOf p x, Before sk dep x) ∧
    (∀ (name : String) (p : List (String × Provider)),
      (p.map Prod.fst).Nodup →
      (∀ kv ∈ p, (injList kv.2).Nodup) →
      (∀ kv ∈ p, ∀ d ∈ injList kv.2, d ∈ p.map Prod.fst) →
      ∃ g, depsGraphOf name p = .ok g ∧
        initQueue g.inDegree =
          (p.filter (fun kv => decide (injList kv.2 = []))).map Prod.fst) ∧
    (∀ (graph : List (String × List String)) (fuel : Nat)
        (inDegree : List (String × Int)) (current : String)
        (restQueue result : List String),
      current ≠ "" →
      sortProviderKeysTopologically graph (fuel + 1) inDegree
          (current :: restQueue) result =
        sortProviderKeysTopologically graph fuel
          (((alookup graph current).getD []).foldl
            (fun acc curr => aupsert acc curr (((alookup acc curr).getD 0) - 1))
            inDegree)
          (restQueue ++
            ((alookup graph current).getD []).filter
              (fun dep =>
                decide ((alookup
                  (((alookup graph current).getD []).foldl
                    (fun acc curr =>
                      aupsert acc curr (((alookup acc curr).getD 0) - 1))
                    inDegree) dep).getD 0 = 0)))
          (result ++ [current])) := by
  refine ⟨?_, ?_, ?_⟩
  · intro name p hv
    obtain ⟨sk, hsk, hnd, hmem, hord⟩ := sortedKeysOf_ok name p hv
    refine ⟨sk, hsk, ?_, hord⟩
    apply List.perm_of_nodup_nodup_toFinset_eq hnd hv.1
    apply Finset.ext
    intro a
    simp only [List.mem_toFinset]
    exact hmem a
  · intro name p hnd hinj hloc
    have hg := buildDepGraph_full name p hnd hloc hinj
    exact ⟨_, by rw [depsGraphOf]; exact hg, initQueue_spec p⟩
  · intro graph fuel inDegree current restQueue result hne
    rw [sortProviderKeysTopologically]
    rw [if_neg hne]

/-- C1 witness: the three parts of the theorem instantiated.  On the
`ordM` chain the sort yields a duplicate-free ordering respecting the
inject lists; the initial queue of `ordM` is exactly `[a]`; one concrete
sort step pops `a` and appends its newly-zero dependent `b` to the
queue's tail. -/
theorem C1_witness :
    (∃ sk, sortedKeysOf "Ord" ordM.providers = .ok sk ∧
      sk.Perm (ordM.providers.map Prod.fst) ∧
      ∀ x ∈ sk, ∀ dep ∈ injOf ordM.providers x, Before sk dep x) ∧
    (∃ g, depsGraphOf "Ord" ordM.providers = .ok g ∧
      initQueue g.inDegree = ["a"]) ∧
    sortProviderKeysTopologically [("a", ["b"])] 3 [("a", 0), ("b", 1)]
        ["a"] [] =
      sortProviderKeysTopologically [("a", ["b"])] 2 [("a", 0), ("b", 0)]
        ["b"] ["a"] := by
  refine ⟨?_, ?_, ?_⟩
  · exact C1_theorem.1 "Ord" ordM.providers
      ⟨by decide, by decide, by decide, by decide,
        acyclic_of_entries ordM.providers
          (fun k => if k = "c" then 2 else if k = "b" then 1 else 0)
          (by decide)⟩
  · obtain ⟨g, hg, hq⟩ :=
      C1_theorem.2.1 "Ord" ordM.providers (by decide) (by decide) (by decide)
    exact ⟨g, hg, hq.trans (by decide)⟩
  · exact (C1_theorem.2.2 [("a", ["b"])] 2 [("a", 0), ("b", 1)] "a" [] []
      (by decide)).trans (by decide)

/-! ## C4 machinery: further list lemmas, module-tree validity, and the
registrar's state invariant -/

theorem nlookup_mem {β : Type} {l : List (Nat × β)} {k : Nat} {v : β}
    (h : nlookup l k = some v) : (k, v) ∈ l := by
  induction l with
  | nil => simp [nlookup] at h
  | cons hd tl ih =>
    by_cases hh : hd.1 = k
    · simp only [nlookup, if_pos hh] at h
      have hv := Option.some.inj h
      subst hh
      subst hv
      rw [Prod.mk.eta]
      exact List.mem_cons_self hd tl
    · simp only [nlookup, if_neg hh] at h
      exact List.mem_cons_of_mem _ (ih h)

theorem alookup_append {β : Type} (l₁ l₂ : List (String × β)) (k : String) :
    alookup (l₁ ++ l₂) k =
      match alookup l₁ k with
      | some v => some v
      | none => alookup l₂ k := by
  induction l₁ with
  | nil => simp [alookup]
  | cons hd tl ih =>
    by_cases h : hd.1 = k
    · simp [alookup, h]
    · simp only [List.cons_append, alookup, if_neg h]
      exact ih

theorem nupsert_map_fst_of_mem {β : Type} (l : List (Nat × β)) (k : Nat) (v : β)
    (h : k ∈ l.map Prod.fst) : (nupsert l k v).map Prod.fst = l.map Prod.fst := by
  induction l with
  | nil => simp at h
  | cons hd tl ih =>
    by_cases hh : hd.1 = k
    · simp [nupsert, hh]
    · have h' : k ∈ tl.map Prod.fst := by
        simp only [List.map_cons, List.mem_cons] at h
        rcases h with h | h
        · exact absurd h.symm hh
        · exact h
      simp [nupsert, hh, ih h']

theorem Mod.depth_pos (m : Mod) : 0 < m.depth := by
  cases m with
  | mk n i p e q c => rw [Mod.depth]; omega

theorem depth_le_depthList {i : Mod} : ∀ {l : List Mod}, i ∈ l →
    i.depth ≤ depthList l := by
  intro l
  induction l with
  | nil => intro h; simp at h
  | cons hd tl ih =>
    intro h
    rw [depthList]
    rcases List.mem_cons.mp h with h | h
    · rw [h]; exact Nat.le_max_left _ _
    · exact Nat.le_trans (ih h) (Nat.le_max_right _ _)

theorem depthList_lt_depth (m : Mod) : depthList m.imports < m.depth := by
  cases m with
  | mk n i p e q c => rw [Mod.depth, Mod.imports]; omega

/-- A module's local provider keys. -/
def localKeys (m : Mod) : List String := m.providers.map Prod.fst

/-- A module's declared export keys. -/
def exportKeys (m : Mod) : List String := m.exports.map Prod.fst

/-- The scope `sid` holds exactly the keys the source registers for `m`:
its local provider keys plus the export keys of its direct imports. -/
def ScopeHasKeys (st : St) (sid : Nat) (m : Mod) : Prop :=
  ∃ contents, nlookup st.scopes sid = some contents ∧
    ∀ k, k ∈ contents.map Prod.fst ↔
      k ∈ localKeys m ∨ ∃ i ∈ m.imports, k ∈ exportKeys i

/-- The universe of modules is closed under imports. -/
def Closed (U : List Mod) : Prop := ∀ m ∈ U, ∀ i ∈ m.imports, i ∈ U

/-- Module names identify modules within the universe. -/
def NameInj (U : List Mod) : Prop :=
  ∀ m ∈ U, ∀ m' ∈ U, m.name = m'.name → m = m'

/-- A controller constructor is declared by at most one module of the
universe. -/
def CtlInj (U : List Mod) : Prop :=
  ∀ m ∈ U, ∀ m' ∈ U, ∀ c : Nat, c ∈ m.controllers → c ∈ m'.controllers → m = m'

/-- Per-module validity: well-formed providers (distinct nonempty keys,
duplicate-free local inject lists, acyclic), distinct import names, no
local key colliding with a direct import's export key, and no controller
listed twice. -/
def LocalValid (m : Mod) : Prop :=
  ProvidersValid m.providers ∧
  (m.imports.map Mod.name).Nodup ∧
  (∀ i ∈ m.imports, ∀ k ∈ exportKeys i, k ∉ localKeys m) ∧
  m.controllers.Nodup

/-- Validity of the whole module universe. -/
def TreeValid (U : List Mod) : Prop :=
  Closed U ∧ NameInj U ∧ CtlInj U ∧ ∀ m ∈ U, LocalValid m

/-- The registrar's state invariant: scope ids are below the fresh
counter, every memoized module scope holds exactly that module's keys,
and every controller binding belongs to a memoized universe module that
declares it. -/
def Inv (U : List Mod) (st : St) : Prop :=
  (∀ pr ∈ st.scopes, pr.1 < st.nextScope) ∧
  (∀ pr ∈ st.moduleScopes, ∃ mm ∈ U, mm.name = pr.1 ∧ ScopeHasKeys st pr.2 mm) ∧
  (∀ pr ∈ st.registeredControllers, ∃ mm ∈ U, mm.name = pr.2 ∧
    pr.1 ∈ mm.controllers ∧ alookup st.moduleScopes mm.name ≠ none)

/-- The induction statement for `registerMod` at a given fuel level:
on a universe member whose depth the fuel covers, starting from an
invariant state (and, if a target scope is supplied, an empty fresh one),
registration succeeds, preserves the invariant, only appends fresh
module-scope entries for universe modules of no greater depth, memoizes
the module with a scope holding exactly its keys, and leaves every other
pre-existing scope untouched. -/
def RegisterModOk (ctx : Ctx) (U : List Mod) (fuel : Nat) : Prop :=
  ∀ m ∈ U, m.depth ≤ fuel →
  ∀ (st : St) (ts : Option Nat), Inv U st →
  (∀ t, ts = some t → nlookup st.scopes t = some [] ∧
    t ∉ st.moduleScopes.map Prod.snd) →
  ∃ st' sid,
    registerMod ctx fuel m ts st = (st', .ok sid) ∧
    Inv U st' ∧
    (∃ d, st'.moduleScopes = st.moduleScopes ++ d ∧
      (∀ pr ∈ d, (st.nextScope ≤ pr.2 ∨ ts = some pr.2) ∧
        ∃ mm ∈ U, mm.name = pr.1 ∧ mm.depth ≤ m.depth)) ∧
    alookup st'.moduleScopes m.name = some sid ∧
    ScopeHasKeys st' sid m ∧
    st.nextScope ≤ st'.nextScope ∧
    (∀ j, nlookup st.scopes j ≠ none → ts ≠ some j →
      nlookup st'.scopes j = nlookup st.scopes j) ∧
    (∀ t, ts = some t → alookup st.moduleScopes m.name = none → sid = t)

theorem mergeAux_keys :
    ∀ (entries : List ImportEntry) (acc : List (String × Registration)) (x : String),
      x ∈ (entries.foldl
        (fun acc e => aupsert acc e.key (.importedFn e.scope e.useClass)) acc).map
          Prod.fst ↔
      x ∈ acc.map Prod.fst ∨ x ∈ entries.map ImportEntry.key := by
  intro entries
  induction entries with
  | nil => intro acc x; simp
  | cons e rest ih =>
    intro acc x
    rw [List.foldl_cons, ih, aupsert_map_fst_mem]
    simp only [List.map_cons, List.mem_cons]
    tauto

theorem mergeImportEntries_keys (entries : List ImportEntry) (x : String) :
    x ∈ (mergeImportEntries entries).map Prod.fst ↔
      x ∈ entries.map ImportEntry.key := by
  rw [mergeImportEntries, mergeAux_keys]
  simp

theorem regMany_keys :
    ∀ (l : List (String × Registration)) (acc : List (String × Registration))
      (x : String),
      x ∈ (l.foldl (fun acc kv => aupsert acc kv.1 kv.2) acc).map Prod.fst ↔
      x ∈ acc.map Prod.fst ∨ x ∈ l.map Prod.fst := by
  intro l
  induction l with
  | nil => intro acc x; simp
  | cons kv rest ih =>
    intro acc x
    rw [List.foldl_cons, ih, aupsert_map_fst_mem]
    simp only [List.map_cons, List.mem_cons]
    tauto

theorem mkImportEntries_keys (imp : Mod) (s : Nat) :
    (mkImportEntries imp s).map ImportEntry.key = exportKeys imp := by
  rw [mkImportEntries, exportKeys, List.map_map]
  rfl

theorem ensureImportsUniqueAux_ok (mname : String) :
    ∀ (l : List Mod) (seen : List String), (l.map Mod.name).Nodup →
      (∀ i ∈ l, i.name ∉ seen) →
      ensureImportsUniqueAux mname l seen = .ok () := by
  intro l
  induction l with
  | nil => intro seen _ _; rfl
  | cons i rest ih =>
    intro seen hnd hseen
    have hnd2 : (i.name :: rest.map Mod.name).Nodup := by
      simpa only [List.map_cons] using hnd
    have hnd' := List.nodup_cons.mp hnd2
    rw [ensureImportsUniqueAux, if_neg (hseen i (List.mem_cons_self i rest))]
    apply ih
    · exact hnd'.2
    · intro i' hi'
      simp only [List.mem_append, List.mem_singleton]
      rintro (h | h)
      · exact hseen i' (List.mem_cons_of_mem i hi') h
      · exact hnd'.1 (h ▸ List.mem_map.mpr ⟨i', hi', rfl⟩)

theorem ensureImportedModulesUniqueness_ok (m : Mod)
    (h : (m.imports.map Mod.name).Nodup) :
    ensureImportedModulesUniqueness m = .ok () := by
  rw [ensureImportedModulesUniqueness]
  exact ensureImportsUniqueAux_ok m.name m.imports [] h (by simp)

theorem ensureNoProviderNameConflicts_ok (m : Mod)
    (h : ∀ i ∈ m.imports, ∀ k ∈ exportKeys i, k ∉ localKeys m) :
    ensureNoProviderNameConflicts m = .ok () := by
  have hfilter : ((m.imports.map (fun imp => imp.exports.map (·.1))).flatten).filter
      (fun k => decide (k ∈ m.providers.map (·.1))) = [] := by
    rw [List.filter_eq_nil_iff]
    intro k hk
    rw [List.mem_flatten] at hk
    obtain ⟨l, hl, hkl⟩ := hk
    obtain ⟨i, hi, hleq⟩ := List.mem_map.mp hl
    have hke : k ∈ exportKeys i := by
      rw [exportKeys]
      rw [← hleq] at hkl
      exact hkl
    have hnot := h i hi k hke
    simp only [decide_eq_true_eq]
    intro hmem
    exact hnot (by rw [localKeys]; exact hmem)
  simp only [ensureNoProviderNameConflicts, hfilter]
  simp

theorem registerInScope_spec (st : St) (sid : Nat) (k : String) (r : Registration)
    (contents : List (String × Registration))
    (h : nlookup st.scopes sid = some contents) :
    registerInScope st sid k r =
      { st with scopes := nupsert st.scopes sid (aupsert contents k r) } := by
  rw [registerInScope, h]

theorem registerManyInScope_spec (st : St) (sid : Nat)
    (l : List (String × Registration)) (contents : List (String × Registration))
    (h : nlookup st.scopes sid = some contents) :
    registerManyInScope st sid l =
      { st with scopes :=
          (nupsert st.scopes sid
            (l.foldl (fun acc kv => aupsert acc kv.1 kv.2) contents)) } := by
  rw [registerManyInScope, h]

theorem processQueryHandlers_frame (ctx : Ctx) (m : Mod) (scope : Nat) (st : St) :
    (processQueryHandlers ctx m scope st).moduleScopes = st.moduleScopes ∧
    (processQueryHandlers ctx m scope st).scopes = st.scopes ∧
    (processQueryHandlers ctx m scope st).registeredControllers =
      st.registeredControllers ∧
    (processQueryHandlers ctx m scope st).nextScope = st.nextScope := by
  by_cases hc : (ctx.onHandler && !m.queryHandlers.isEmpty) = true
  · simp [processQueryHandlers, hc]
  · simp [processQueryHandlers, hc]

theorem resolveFactoryDeps_ok (contents : List (String × Registration)) (sid : Nat)
    (mname : String) :
    ∀ (inject : List String), (∀ k ∈ inject, k ∈ contents.map Prod.fst) →
      ∃ vs, resolveFactoryDeps contents sid mname inject = .ok vs := by
  intro inject
  induction inject with
  | nil => intro _; exact ⟨[], rfl⟩
  | cons k rest ih =>
    intro h
    obtain ⟨r, hr⟩ := (alookup_isSome contents k).mpr (h k (List.mem_cons_self k rest))
    obtain ⟨vs, hvs⟩ := ih (fun k' hk' => h k' (List.mem_cons_of_mem k hk'))
    exact ⟨resolveReg r sid :: vs, by simp only [resolveFactoryDeps, hr, hvs]⟩

/-- A successful sweep of `registerSorted`: when every entry's inject
keys are available in the initial contents or registered by an earlier
entry, registration succeeds and the scope's key set grows by exactly the
swept keys, all other state components untouched. -/
theorem registerSorted_ok (mname : String) (sid : Nat) :
    ∀ (sorted : List (String × Provider)) (st : St)
      (contents0 : List (String × Registration)),
      nlookup st.scopes sid = some contents0 →
      (∀ l1 kv l2, sorted = l1 ++ kv :: l2 →
        ∀ dep ∈ injList kv.2, dep ∈ contents0.map Prod.fst ∨ dep ∈ l1.map Prod.fst) →
      ∃ st' contents',
        registerSorted mname sid sorted st = (st', .ok ()) ∧
        nlookup st'.scopes sid = some contents' ∧
        (∀ k, k ∈ contents'.map Prod.fst ↔
          k ∈ contents0.map Prod.fst ∨ k ∈ sorted.map Prod.fst) ∧
        st'.scopes.map Prod.fst = st.scopes.map Prod.fst ∧
        (∀ j, j ≠ sid → nlookup st'.scopes j = nlookup st.scopes j) ∧
        st'.moduleScopes = st.moduleScopes ∧
        st'.registeredControllers = st.registeredControllers ∧
        st'.nextScope = st.nextScope := by
  intro sorted
  induction sorted with
  | nil =>
    intro st contents0 h _
    exact ⟨st, contents0, rfl, h, by simp, rfl, fun _ _ => rfl, rfl, rfl, rfl⟩
  | cons kv rest ih =>
    intro st contents0 h hdeps
    obtain ⟨key, pr⟩ := kv
    have hsidmem : sid ∈ st.scopes.map Prod.fst :=
      List.mem_map.mpr ⟨(sid, contents0), nlookup_mem h, rfl⟩
    have hdeps' : ∀ (r : Registration) (l1 : List (String × Provider)) kv' l2,
        rest = l1 ++ kv' :: l2 →
        ∀ dep ∈ injList kv'.2,
          dep ∈ (aupsert contents0 key r).map Prod.fst ∨ dep ∈ l1.map Prod.fst := by
      intro r l1 kv' l2 hsplit dep hdep
      have := hdeps ((key, pr) :: l1) kv' l2 (by rw [hsplit]; rfl) dep hdep
      rcases this with hc | hl
      · exact Or.inl ((aupsert_map_fst_mem contents0 key r dep).mpr (Or.inl hc))
      · simp only [List.map_cons, List.mem_cons] at hl
        rcases hl with hl | hl
        · exact Or.inl ((aupsert_map_fst_mem contents0 key r dep).mpr (Or.inr hl))
        · exact Or.inr hl
    cases pr with
    | resolver rid =>
      have e1 : registerInScope st sid key (.resolver rid) =
          { st with scopes :=
              nupsert st.scopes sid (aupsert contents0 key (.resolver rid)) } :=
        registerInScope_spec st sid key (.resolver rid) contents0 h
      obtain ⟨st', c', heq, hsc', hkeys', hids', hframe', hms', hrc', hns'⟩ :=
        ih { st with
              scopes := nupsert st.scopes sid (aupsert contents0 key (.resolver rid)),
              events := st.events ++ [Event.regLocal mname key] }
          (aupsert contents0 key (.resolver rid))
          (nlookup_nupsert_self st.scopes sid _)
          (hdeps' (.resolver rid))
      refine ⟨st', c', ?_, hsc', ?_, ?_, ?_, hms', hrc', hns'⟩
      · simp only [registerSorted, e1]
        exact heq
      · intro k
        rw [hkeys', aupsert_map_fst_mem]
        simp only [List.map_cons, List.mem_cons]
        tauto
      · rw [hids']
        exact nupsert_map_fst_of_mem st.scopes sid _ hsidmem
      · intro j hj
        rw [hframe' j hj]
        exact nlookup_nupsert_ne st.scopes sid j _ hj
    | classProvider c =>
      have e1 : registerInScope st sid key (.cls c) =
          { st with scopes :=
              nupsert st.scopes sid (aupsert contents0 key (.cls c)) } :=
        registerInScope_spec st sid key (.cls c) contents0 h
      obtain ⟨st', c', heq, hsc', hkeys', hids', hframe', hms', hrc', hns'⟩ :=
        ih { st with
              scopes := nupsert st.scopes sid (aupsert contents0 key (.cls c)),
              events := st.events ++ [Event.regLocal mname key] }
          (aupsert contents0 key (.cls c))
          (nlookup_nupsert_self st.scopes sid _)
          (hdeps' (.cls c))
      refine ⟨st', c', ?_, hsc', ?_, ?_, ?_, hms', hrc', hns'⟩
      · simp only [registerSorted, e1]
        exact heq
      · intro k
        rw [hkeys', aupsert_map_fst_mem]
        simp only [List.map_cons, List.mem_cons]
        tauto
      · rw [hids']
        exact nupsert_map_fst_of_mem st.scopes sid _ hsidmem
      · intro j hj
        rw [hframe' j hj]
        exact nlookup_nupsert_ne st.scopes sid j _ hj
    | classCtor c =>
      have e1 : registerInScope st sid key (.cls c) =
          { st with scopes :=
              nupsert st.scopes sid (aupsert contents0 key (.cls c)) } :=
        registerInScope_spec st sid key (.cls c) contents0 h
      obtain ⟨st', c', heq, hsc', hkeys', hids', hframe', hms', hrc', hns'⟩ :=
        ih { st with
              scopes := nupsert st.scopes sid (aupsert contents0 key (.cls c)),
              events := st.events ++ [Event.regLocal mname key] }
          (aupsert contents0 key (.cls c))
          (nlookup_nupsert_self st.scopes sid _)
          (hdeps' (.cls c))
      refine ⟨st', c', ?_, hsc', ?_, ?_, ?_, hms', hrc', hns'⟩
      · simp only [registerSorted, e1]
        exact heq
      · intro k
        rw [hkeys', aupsert_map_fst_mem]
        simp only [List.map_cons, List.mem_cons]
        tauto
      · rw [hids']
        exact nupsert_map_fst_of_mem st.scopes sid _ hsidmem
      · intro j hj
        rw [hframe' j hj]
        exact nlookup_nupsert_ne st.scopes sid j _ hj
    | factory inject fid =>
      have hinj : ∀ k ∈ inject, k ∈ contents0.map Prod.fst := by
        intro k hk
        have := hdeps [] (key, .factory inject fid) rest rfl k (by
          simp only [injList]
          exact hk)
        rcases this with hc | hl
        · exact hc
        · simp at hl
      obtain ⟨vs, hvs⟩ := resolveFactoryDeps_ok contents0 sid mname inject hinj
      have e1 : registerInScope
            { st with events := st.events ++ [Event.factoryRun fid vs] } sid key
            (.value (.factoryOut fid)) =
          { st with
              scopes :=
                nupsert st.scopes sid (aupsert contents0 key (.value (.factoryOut fid))),
              events := st.events ++ [Event.factoryRun fid vs] } :=
        registerInScope_spec _ sid key (.value (.factoryOut fid)) contents0 h
      obtain ⟨st', c', heq, hsc', hkeys', hids', hframe', hms', hrc', hns'⟩ :=
        ih { st with
              scopes :=
                nupsert st.scopes sid (aupsert contents0 key (.value (.factoryOut fid))),
              events := (st.events ++ [Event.factoryRun fid vs]) ++
                [Event.regLocal mname key] }
          (aupsert contents0 key (.value (.factoryOut fid)))
          (nlookup_nupsert_self st.scopes sid _)
          (hdeps' (.value (.factoryOut fid)))
      refine ⟨st', c', ?_, hsc', ?_, ?_, ?_, hms', hrc', hns'⟩
      · simp only [registerSorted, h, Option.getD_some, hvs, e1]
        exact heq
      · intro k
        rw [hkeys', aupsert_map_fst_mem]
        simp only [List.map_cons, List.mem_cons]
        tauto
      · rw [hids']
        exact nupsert_map_fst_of_mem st.scopes sid _ hsidmem
      · intro j hj
        rw [hframe' j hj]
        exact nlookup_nupsert_ne st.scopes sid j _ hj

/-- Unfolding of `registerMod` on a not-yet-memoized module passing both
validations, with the scope-selection match evaluated to `(scope, stA)`. -/
theorem registerMod_fresh (ctx : Ctx) (fuel : Nat) (m : Mod) (ts : Option Nat)
    (st : St) (scope : Nat) (stA : St)
    (hmemo : alookup st.moduleScopes m.name = none)
    (huniq : ensureImportedModulesUniqueness m = .ok ())
    (hconf : ensureNoProviderNameConflicts m = .ok ())
    (hp : (match ts with
           | some t => (t, st)
           | none => createScope st) = (scope, stA)) :
    registerMod ctx (fuel + 1) m ts st =
      (match m.imports.foldl
          (fun (acc : St × Except Err (List ImportEntry)) imp =>
            match acc with
            | (st, .error e) => (st, Except.error e)
            | (st, .ok entries) =>
              match registerMod ctx fuel imp none st with
              | (st, .error e) => (st, Except.error e)
              | (st, .ok importedScope) =>
                (st, Except.ok (entries ++ mkImportEntries imp importedScope)))
          (stA, Except.ok []) with
      | (st, .error e) => (st, .error e)
      | (st, .ok entries) =>
        let st := registerManyInScope st scope (mergeImportEntries entries)
        match sortProvidersByDependencies m.name m.providers with
        | .error e => (st, .error e)
        | .ok sorted =>
          match registerSorted m.name scope sorted st with
          | (st, .error e) => (st, .error e)
          | (st, .ok _) =>
            let st := { st with moduleScopes := aupsert st.moduleScopes m.name scope }
            let st := processQueryHandlers ctx m scope st
            match processControllers ctx m scope st with
            | (st, .error e) => (st, .error e)
            | (st, .ok _) => (st, .ok scope)) := by
  simp only [registerMod, hmemo, huniq, hconf, hp]

/-- The imports fold of `registerMod` under the induction hypothesis:
every direct import registers successfully, the collected entries are the
direct imports' export keys in order, and the state extends invariantly. -/
theorem foldImports_ok (ctx : Ctx) (U : List Mod) (fuel : Nat)
    (hrec : RegisterModOk ctx U fuel) :
    ∀ (imps : List Mod), (∀ i ∈ imps, i ∈ U) → (∀ i ∈ imps, i.depth ≤ fuel) →
    ∀ (st : St) (entries0 : List ImportEntry), Inv U st →
    ∃ st' entries,
      imps.foldl
        (fun (acc : St × Except Err (List ImportEntry)) imp =>
          match acc with
          | (st, .error e) => (st, Except.error e)
          | (st, .ok entries) =>
            match registerMod ctx fuel imp none st with
            | (st, .error e) => (st, Except.error e)
            | (st, .ok importedScope) =>
              (st, Except.ok (entries ++ mkImportEntries imp importedScope)))
        (st, Except.ok entries0) = (st', Except.ok (entries0 ++ entries)) ∧
      entries.map ImportEntry.key = (imps.map exportKeys).flatten ∧
      Inv U st' ∧
      (∃ d, st'.moduleScopes = st.moduleScopes ++ d ∧
        (∀ pr ∈ d, st.nextScope ≤ pr.2 ∧
          ∃ mm ∈ U, mm.name = pr.1 ∧ mm.depth ≤ depthList imps)) ∧
      st.nextScope ≤ st'.nextScope ∧
      (∀ j, nlookup st.scopes j ≠ none →
        nlookup st'.scopes j = nlookup st.scopes j) := by
  intro imps
  induction imps with
  | nil =>
    intro _ _ st entries0 hInv
    refine ⟨st, [], by simp, rfl, hInv, ⟨[], by simp, by simp⟩, le_refl _,
      fun _ _ => rfl⟩
  | cons i rest ih =>
    intro hiU hidep st entries0 hInv
    obtain ⟨st1, sid, heq1, hInv1, ⟨d1, hms1, hd1⟩, halk1, hshk1, hns1, hframe1,
        hsid1⟩ :=
      hrec i (hiU i (List.mem_cons_self i rest)) (hidep i (List.mem_cons_self i rest))
        st none hInv (fun t ht => nomatch ht)
    obtain ⟨st', entries, heq2, hkeys2, hInv2, ⟨d2, hms2, hd2⟩, hns2, hframe2⟩ :=
      ih (fun i' hi' => hiU i' (List.mem_cons_of_mem i hi'))
        (fun i' hi' => hidep i' (List.mem_cons_of_mem i hi'))
        st1 (entries0 ++ mkImportEntries i sid) hInv1
    refine ⟨st', mkImportEntries i sid ++ entries, ?_, ?_, hInv2, ?_,
      le_trans hns1 hns2, ?_⟩
    · rw [List.foldl_cons]
      simp only [heq1]
      rw [heq2, List.append_assoc]
    · rw [List.map_append, mkImportEntries_keys, hkeys2, List.map_cons,
        List.flatten_cons]
    · refine ⟨d1 ++ d2, by rw [hms2, hms1, List.append_assoc], ?_⟩
      intro pr hpr
      rcases List.mem_append.mp hpr with hmem | hmem
      · obtain ⟨hsc, mm, hmmU, hname, hdep⟩ := hd1 pr hmem
        rcases hsc with hsc | hsc
        · exact ⟨hsc, mm, hmmU, hname,
            le_trans hdep (depth_le_depthList (List.mem_cons_self i rest))⟩
        · exact absurd hsc (by simp)
      · obtain ⟨hsc, mm, hmmU, hname, hdep⟩ := hd2 pr hmem
        refine ⟨le_trans hns1 hsc, mm, hmmU, hname, ?_⟩
        rw [depthList]
        exact le_trans hdep (Nat.le_max_right _ _)
    · intro j hj
      have hj1 : nlookup st1.scopes j ≠ none := by
        rw [hframe1 j hj (by simp)]
        exact hj
      rw [hframe2 j hj1, hframe1 j hj (by simp)]

/-- The body of a fresh (non-memoized) `registerMod` run on a valid
module: the imports register, the merge and the sorted local providers
fill the module's scope with exactly its keys, the module memoizes, and
hooks dispatch without error. -/
theorem registerModBody_ok (ctx : Ctx) (U : List Mod) (hU : TreeValid U)
    (fuel : Nat) (hrec : RegisterModOk ctx U fuel)
    (m : Mod) (hm : m ∈ U) (hdeps : ∀ i ∈ m.imports, i.depth ≤ fuel)
    (stA : St) (scope : Nat) (hInv : Inv U stA)
    (hsc : nlookup stA.scopes scope = some [])
    (hmsfree : scope ∉ stA.moduleScopes.map Prod.snd)
    (hmemo : alookup stA.moduleScopes m.name = none)
    (hbound : scope < stA.nextScope) :
    ∃ st',
      (match m.imports.foldl
          (fun (acc : St × Except Err (List ImportEntry)) imp =>
            match acc with
            | (st, .error e) => (st, Except.error e)
            | (st, .ok entries) =>
              match registerMod ctx fuel imp none st with
              | (st, .error e) => (st, Except.error e)
              | (st, .ok importedScope) =>
                (st, Except.ok (entries ++ mkImportEntries imp importedScope)))
          (stA, Except.ok []) with
      | (st, .error e) => (st, .error e)
      | (st, .ok entries) =>
        let st := registerManyInScope st scope (mergeImportEntries entries)
        match sortProvidersByDependencies m.name m.providers with
        | .error e => (st, .error e)
        | .ok sorted =>
          match registerSorted m.name scope sorted st with
          | (st, .error e) => (st, .error e)
          | (st, .ok _) =>
            let st := { st with moduleScopes := aupsert st.moduleScopes m.name scope }
            let st := processQueryHandlers ctx m scope st
            match processControllers ctx m scope st with
            | (st, .error e) => (st, .error e)
            | (st, .ok _) => (st, .ok scope)) = (st', Except.ok scope) ∧
      Inv U st' ∧
      (∃ d, st'.moduleScopes = stA.moduleScopes ++ d ∧
        (∀ pr ∈ d, (stA.nextScope ≤ pr.2 ∨ pr.2 = scope) ∧
          ∃ mm ∈ U, mm.name = pr.1 ∧ (mm.depth ≤ depthList m.imports ∨ mm = m))) ∧
      alookup st'.moduleScopes m.name = some scope ∧
      ScopeHasKeys st' scope m ∧
      stA.nextScope ≤ st'.nextScope ∧
      (∀ j, nlookup stA.scopes j ≠ none → j ≠ scope →
        nlookup st'.scopes j = nlookup stA.scopes j) := by
  obtain ⟨hClosed, hNameInj, hCtlInj, hLocalAll⟩ := hU
  obtain ⟨hPV, hImpNd, hNoConf, hCtlNd⟩ := hLocalAll m hm
  obtain ⟨st2, entries, hfold, hkeys, hInv2, ⟨d1, hms2, hd1⟩, hns2, hframe2⟩ :=
    foldImports_ok ctx U fuel hrec m.imports (hClosed m hm) hdeps stA [] hInv
  have hd1name : ∀ pr ∈ d1, pr.1 ≠ m.name := by
    intro pr hpr hname
    obtain ⟨_, mm, hmmU, hmmname, hmmdep⟩ := hd1 pr hpr
    have hmmm : mm = m := hNameInj mm hmmU m hm (by rw [hmmname, hname])
    rw [hmmm] at hmmdep
    exact absurd hmmdep (Nat.not_le.mpr (depthList_lt_depth m))
  have hmemo2 : alookup st2.moduleScopes m.name = none := by
    rw [alookup_eq_none] at hmemo ⊢
    rw [hms2, List.map_append]
    intro hmem
    rcases List.mem_append.mp hmem with hmem | hmem
    · exact hmemo hmem
    · obtain ⟨pr, hpr, hfst⟩ := List.mem_map.mp hmem
      exact hd1name pr hpr hfst
  have hsc2 : nlookup st2.scopes scope = some [] := by
    rw [hframe2 scope (by rw [hsc]; simp)]
    exact hsc
  have hscope_mem2 : scope ∈ st2.scopes.map Prod.fst :=
    List.mem_map.mpr ⟨(scope, []), nlookup_mem hsc2, rfl⟩
  have hmerge := registerManyInScope_spec st2 scope (mergeImportEntries entries) [] hsc2
  have hC0keys : ∀ k, k ∈ ((mergeImportEntries entries).foldl
      (fun acc kv => aupsert acc kv.1 kv.2)
      ([] : List (String × Registration))).map Prod.fst ↔
      ∃ i ∈ m.imports, k ∈ exportKeys i := by
    intro k
    rw [regMany_keys, mergeImportEntries_keys, hkeys]
    constructor
    · rintro (h | h)
      · simp at h
      · rw [List.mem_flatten] at h
        obtain ⟨l, hl, hkl⟩ := h
        obtain ⟨i, hi, hleq⟩ := List.mem_map.mp hl
        exact ⟨i, hi, by rw [← hleq] at hkl; exact hkl⟩
    · rintro ⟨i, hi, hk⟩
      right
      rw [List.mem_flatten]
      exact ⟨exportKeys i, List.mem_map.mpr ⟨i, hi, rfl⟩, hk⟩
  obtain ⟨sorted, hsorteq, hsortnd, hsortmem, hsortentries, hsortord⟩ :=
    sortProviders_ok m.name m.providers hPV
  obtain ⟨st4, C1, heq4, hsc4, hkeys4, hids4, hframe4, hms4, hrc4, hns4⟩ :=
    registerSorted_ok m.name scope sorted
      { st2 with scopes := nupsert st2.scopes scope ((mergeImportEntries entries).foldl
          (fun acc kv => aupsert acc kv.1 kv.2) []) }
      ((mergeImportEntries entries).foldl (fun acc kv => aupsert acc kv.1 kv.2) [])
      (nlookup_nupsert_self st2.scopes scope _)
      (fun l1 kv l2 hsplit dep hdep => Or.inr (hsortord l1 kv l2 hsplit dep hdep))
  have hms4' : st4.moduleScopes = st2.moduleScopes := hms4
  have hrc4' : st4.registeredControllers = st2.registeredControllers := hrc4
  have hns4' : st4.nextScope = st2.nextScope := hns4
  have hids4' : st4.scopes.map Prod.fst = st2.scopes.map Prod.fst := by
    rw [hids4]
    exact nupsert_map_fst_of_mem st2.scopes scope _ hscope_mem2
  have hfresh4 : m.name ∉ st4.moduleScopes.map Prod.fst := by
    rw [hms4']
    exact (alookup_eq_none st2.moduleScopes m.name).mp hmemo2
  have haup : aupsert st4.moduleScopes m.name scope =
      st4.moduleScopes ++ [(m.name, scope)] :=
    aupsert_fresh st4.moduleScopes m.name scope hfresh4
  have hpqf := processQueryHandlers_frame ctx m scope
    { st4 with moduleScopes := aupsert st4.moduleScopes m.name scope }
  have hunbound : ∀ c ∈ m.controllers,
      nlookup (processQueryHandlers ctx m scope
        { st4 with moduleScopes :=
            aupsert st4.moduleScopes m.name scope }).registeredControllers c =
        none := by
    intro c hc
    cases hn : nlookup (processQueryHandlers ctx m scope
        { st4 with moduleScopes :=
            aupsert st4.moduleScopes m.name scope }).registeredControllers c with
    | none => rfl
    | some n =>
      exfalso
      rw [hpqf.2.2.1] at hn
      have hn2 : nlookup st2.registeredControllers c = some n := by
        rw [← hrc4']
        exact hn
      obtain ⟨mm, hmmU, hmmname, hmmc, hmmalive⟩ := hInv2.2.2 (c, n) (nlookup_mem hn2)
      have hmmm : m = mm := hCtlInj m hm mm hmmU c hc hmmc
      rw [← hmmm] at hmmalive
      exact hmmalive hmemo2
  have hctl : ∃ stF, processControllers ctx m scope (processQueryHandlers ctx m scope
        { st4 with moduleScopes := aupsert st4.moduleScopes m.name scope }) =
        (stF, .ok ()) ∧
      stF.moduleScopes = (processQueryHandlers ctx m scope
        { st4 with moduleScopes := aupsert st4.moduleScopes m.name scope }).moduleScopes ∧
      stF.scopes = (processQueryHandlers ctx m scope
        { st4 with moduleScopes := aupsert st4.moduleScopes m.name scope }).scopes ∧
      stF.nextScope = (processQueryHandlers ctx m scope
        { st4 with moduleScopes := aupsert st4.moduleScopes m.name scope }).nextScope ∧
      (∀ pr ∈ stF.registeredControllers,
        pr ∈ (processQueryHandlers ctx m scope
          { st4 with moduleScopes :=
              aupsert st4.moduleScopes m.name scope }).registeredControllers ∨
          (pr.1 ∈ m.controllers ∧ pr.2 = m.name)) := by
    by_cases hcond : (ctx.onController && !m.controllers.isEmpty) = true
    · rw [processControllers, if_pos hcond,
        processControllersLoop_fresh m.name scope m.controllers _ hCtlNd hunbound]
      refine ⟨_, rfl, rfl, rfl, rfl, ?_⟩
      intro pr hpr
      rcases List.mem_append.mp hpr with h | h
      · exact Or.inl h
      · obtain ⟨c, hc, hceq⟩ := List.mem_map.mp h
        rw [← hceq]
        exact Or.inr ⟨hc, rfl⟩
    · rw [processControllers, if_neg hcond]
      exact ⟨_, rfl, rfl, rfl, rfl, fun pr hpr => Or.inl hpr⟩
  obtain ⟨stF, hctleq, hctlms, hctlsc, hctlns, hctlrc⟩ := hctl
  have hmsF : stF.moduleScopes = st4.moduleScopes ++ [(m.name, scope)] := by
    rw [hctlms, hpqf.1]
    exact haup
  have hscF : stF.scopes = st4.scopes := by
    rw [hctlsc, hpqf.2.1]
  have hnsF : stF.nextScope = st2.nextScope := by
    rw [hctlns, hpqf.2.2.2]
    exact hns4'
  have halkF : alookup stF.moduleScopes m.name = some scope := by
    rw [hctlms, hpqf.1]
    exact alookup_aupsert_self st4.moduleScopes m.name scope
  have hSHK : ScopeHasKeys stF scope m := by
    refine ⟨C1, by rw [hscF]; exact hsc4, ?_⟩
    intro k
    rw [hkeys4 k]
    constructor
    · rintro (h | h)
      · exact Or.inr ((hC0keys k).mp h)
      · exact Or.inl ((hsortmem k).mp h)
    · rintro (h | h)
      · exact Or.inr ((hsortmem k).mpr h)
      · exact Or.inl ((hC0keys k).mpr h)
  refine ⟨stF, ?_, ⟨?_, ?_, ?_⟩, ?_, halkF, hSHK, ?_, ?_⟩
  · rw [hfold]
    simp only [List.nil_append, hmerge, hsorteq, heq4, hctleq]
  · -- scope ids stay bounded
    intro pr hpr
    rw [hscF] at hpr
    have hfst : pr.1 ∈ st2.scopes.map Prod.fst := by
      rw [← hids4']
      exact List.mem_map.mpr ⟨pr, hpr, rfl⟩
    obtain ⟨q, hq, hqfst⟩ := List.mem_map.mp hfst
    have hqb := hInv2.1 q hq
    rw [hnsF, ← hqfst]
    exact hqb
  · -- every memoized module's scope keeps its key specification
    intro pr hpr
    rw [hmsF] at hpr
    rcases List.mem_append.mp hpr with hpr | hpr
    · have hpr2 : pr ∈ st2.moduleScopes := by
        rw [← hms4']
        exact hpr
      obtain ⟨mm, hmmU, hmmname, c, hcont, hiff⟩ := hInv2.2.1 pr hpr2
      have hne : pr.2 ≠ scope := by
        have hprs : pr ∈ stA.moduleScopes ++ d1 := by
          rw [← hms2]
          exact hpr2
        rcases List.mem_append.mp hprs with hh | hh
        · exact fun he => hmsfree (he ▸ List.mem_map.mpr ⟨pr, hh, rfl⟩)
        · have hge := (hd1 pr hh).1
          omega
      refine ⟨mm, hmmU, hmmname, c, ?_, hiff⟩
      rw [hscF]
      calc nlookup st4.scopes pr.2
          = nlookup (nupsert st2.scopes scope ((mergeImportEntries entries).foldl
              (fun acc kv => aupsert acc kv.1 kv.2) [])) pr.2 := hframe4 pr.2 hne
        _ = nlookup st2.scopes pr.2 := nlookup_nupsert_ne st2.scopes scope pr.2 _ hne
        _ = some c := hcont
    · have hpr' : pr = (m.name, scope) := by simpa using hpr
      rw [hpr']
      exact ⟨m, hm, rfl, hSHK⟩
  · -- every controller binding stays owned by a memoized module
    intro pr hpr
    rcases hctlrc pr hpr with hold | hnew
    · rw [hpqf.2.2.1] at hold
      have hold2 : pr ∈ st2.registeredControllers := by
        rw [← hrc4']
        exact hold
      obtain ⟨mm, hmmU, hmmname, hmmc, hmmalive⟩ := hInv2.2.2 pr hold2
      refine ⟨mm, hmmU, hmmname, hmmc, ?_⟩
      have halive4 : alookup st4.moduleScopes mm.name ≠ none := by
        rw [hms4']
        exact hmmalive
      rw [hmsF, alookup_append]
      intro hcontra
      cases hcase : alookup st4.moduleScopes mm.name with
      | none => exact halive4 hcase
      | some v =>
        rw [hcase] at hcontra
        exact Option.noConfusion hcontra
    · refine ⟨m, hm, hnew.2.symm, hnew.1, ?_⟩
      rw [halkF]
      simp
  · -- module-scope entries grow by the imports' entries plus this module's
    refine ⟨d1 ++ [(m.name, scope)], ?_, ?_⟩
    · rw [hmsF, hms4', hms2, List.append_assoc]
    · intro pr hpr
      rcases List.mem_append.mp hpr with hh | hh
      · obtain ⟨hge, mm, hmmU, hmmname, hmmdep⟩ := hd1 pr hh
        exact ⟨Or.inl hge, mm, hmmU, hmmname, Or.inl hmmdep⟩
      · have hpr' : pr = (m.name, scope) := by simpa using hh
        rw [hpr']
        exact ⟨Or.inr rfl, m, hm, rfl, Or.inr rfl⟩
  · rw [hnsF]
    exact hns2
  · intro j hj hjne
    have hj2 : nlookup st2.scopes j ≠ none := by
      rw [hframe2 j hj]
      exact hj
    calc nlookup stF.scopes j
        = nlookup st4.scopes j := by rw [hscF]
      _ = nlookup (nupsert st2.scopes scope ((mergeImportEntries entries).foldl
            (fun acc kv => aupsert acc kv.1 kv.2) [])) j := hframe4 j hjne
      _ = nlookup st2.scopes j := nlookup_nupsert_ne st2.scopes scope j _ hjne
      _ = nlookup stA.scopes j := hframe2 j hj

/-- `registerMod` satisfies the induction statement at every fuel level:
fuel at least the module's import-tree depth guarantees success with the
key-set specification. -/
theorem registerMod_ok (ctx : Ctx) (U : List Mod) (hU : TreeValid U) :
    ∀ fuel, RegisterModOk ctx U fuel := by
  intro fuel
  induction fuel with
  | zero =>
    intro m hm hdepth
    have := Mod.depth_pos m
    omega
  | succ fuel ih =>
    intro m hm hdepth st ts hInv hts
    cases hmemo : alookup st.moduleScopes m.name with
    | some s =>
      refine ⟨st, s, memo_hit ctx (fuel + 1) m ts st s hmemo, hInv,
        ⟨[], by simp, by simp⟩, hmemo, ?_, le_refl _, fun _ _ _ => rfl, ?_⟩
      · obtain ⟨mm, hmmU, hmmname, hshk⟩ := hInv.2.1 (m.name, s) (alookup_mem hmemo)
        have hmmm : mm = m := hU.2.1 mm hmmU m hm hmmname
        rw [← hmmm]
        exact hshk
      · intro t ht hnone
        exact absurd hnone (by simp)
    | none =>
      have huniq := ensureImportedModulesUniqueness_ok m (hU.2.2.2 m hm).2.1
      have hconf := ensureNoProviderNameConflicts_ok m (hU.2.2.2 m hm).2.2.1
      have hdeps : ∀ i ∈ m.imports, i.depth ≤ fuel := by
        intro i hi
        have h1 : i.depth ≤ depthList m.imports := depth_le_depthList hi
        have h2 : depthList m.imports < m.depth := depthList_lt_depth m
        omega
      cases ts with
      | some t =>
        obtain ⟨hsct, htfree⟩ := hts t rfl
        have hbound : t < st.nextScope := hInv.1 (t, []) (nlookup_mem hsct)
        have hp : (match (some t : Option Nat) with
            | some t => (t, st)
            | none => createScope st) = (t, st) := rfl
        rw [registerMod_fresh ctx fuel m (some t) st t st hmemo huniq hconf hp]
        obtain ⟨st', heq, hInv', ⟨d, hmsd, hdprops⟩, halk, hshk, hns, hframe⟩ :=
          registerModBody_ok ctx U hU fuel ih m hm hdeps st t hInv hsct htfree
            hmemo hbound
        refine ⟨st', t, heq, hInv', ⟨d, hmsd, ?_⟩, halk, hshk, hns, ?_,
          fun t' ht' _ => Option.some.inj ht'⟩
        · intro pr hpr
          obtain ⟨hsc, mm, hmmU, hmmname, hdep⟩ := hdprops pr hpr
          refine ⟨?_, mm, hmmU, hmmname, ?_⟩
          · rcases hsc with h | h
            · exact Or.inl h
            · exact Or.inr (by rw [h])
          · rcases hdep with h | h
            · have := depthList_lt_depth m
              omega
            · rw [h]
        · intro j hj hts'
          have hjne : j ≠ t := fun he => hts' (by rw [he])
          exact hframe j hj hjne
      | none =>
        have hp : (match (none : Option Nat) with
            | some t => (t, st)
            | none => createScope st) =
            (st.nextScope, { st with scopes := st.scopes ++ [(st.nextScope, [])], nextScope := st.nextScope + 1 }) := rfl
        have hInvA : Inv U { st with scopes := st.scopes ++ [(st.nextScope, [])], nextScope := st.nextScope + 1 } := by
          refine ⟨?_, ?_, ?_⟩
          · intro pr hpr
            rcases List.mem_append.mp hpr with hh | hh
            · have h1 := hInv.1 pr hh
              show pr.1 < st.nextScope + 1
              omega
            · have hpr' : pr = (st.nextScope, []) := by simpa using hh
              rw [hpr']
              exact Nat.lt_succ_self _
          · intro pr hpr
            obtain ⟨mm, hmmU, hmmname, c, hcont, hiff⟩ := hInv.2.1 pr hpr
            refine ⟨mm, hmmU, hmmname, c, ?_, hiff⟩
            show nlookup (st.scopes ++ [(st.nextScope, [])]) pr.2 = some c
            rw [nlookup_append, hcont]
          · intro pr hpr
            exact hInv.2.2 pr hpr
        have hscA : nlookup ({ st with scopes := st.scopes ++ [(st.nextScope, [])], nextScope := st.nextScope + 1 } : St).scopes st.nextScope = some [] := by
          show nlookup (st.scopes ++ [(st.nextScope, [])]) st.nextScope = some []
          exact nlookup_append_fresh st.scopes st.nextScope []
            (fun pr hpr => Nat.ne_of_lt (hInv.1 pr hpr))
        have hmsfreeA : st.nextScope ∉ ({ st with scopes := st.scopes ++ [(st.nextScope, [])], nextScope := st.nextScope + 1 } : St).moduleScopes.map Prod.snd := by
          intro hmem
          obtain ⟨pr, hpr, hsnd⟩ := List.mem_map.mp hmem
          obtain ⟨mm, _, _, c, hcont, _⟩ := hInv.2.1 pr hpr
          have := hInv.1 (pr.2, c) (nlookup_mem hcont)
          omega
        rw [registerMod_fresh ctx fuel m none st st.nextScope
          { st with scopes := st.scopes ++ [(st.nextScope, [])], nextScope := st.nextScope + 1 } hmemo huniq hconf hp]
        obtain ⟨st', heq, hInv', ⟨d, hmsd, hdprops⟩, halk, hshk, hns, hframe⟩ :=
          registerModBody_ok ctx U hU fuel ih m hm hdeps
            { st with scopes := st.scopes ++ [(st.nextScope, [])], nextScope := st.nextScope + 1 }
            st.nextScope hInvA hscA hmsfreeA hmemo (Nat.lt_succ_self _)
        refine ⟨st', st.nextScope, heq, hInv', ⟨d, hmsd, ?_⟩, halk, hshk,
          le_trans (Nat.le_succ _) hns, ?_, fun t ht _ => nomatch ht⟩
        · intro pr hpr
          obtain ⟨hsc, mm, hmmU, hmmname, hdep⟩ := hdprops pr hpr
          refine ⟨?_, mm, hmmU, hmmname, ?_⟩
          · rcases hsc with h | h
            · have h' : st.nextScope + 1 ≤ pr.2 := h
              exact Or.inl (by omega)
            · exact Or.inl (Nat.le_of_eq h.symm)
          · rcases hdep with h | h
            · have := depthList_lt_depth m
              omega
            · rw [h]
        · intro j hj _
          have hjA : nlookup (st.scopes ++ [(st.nextScope, [])]) j =
              nlookup st.scopes j := by
            rw [nlookup_append]
            cases hc : nlookup st.scopes j with
            | some v => rfl
            | none => exact absurd hc hj
          have hjne : j ≠ st.nextScope := by
            cases hc : nlookup st.scopes j with
            | some v =>
              have := hInv.1 (j, v) (nlookup_mem hc)
              omega
            | none => exact absurd hc hj
          have := hframe j (by rw [hjA]; exact hj) hjne
          rw [this]
          exact hjA

/-- Witness module: exports its sole provider `b`. -/
def wB : Mod := .mk "WB" [] [("b", .resolver 1)] [("b", .resolver 1)] [] []

/-- Witness module: imports `wB`, declares and exports `mkey`. -/
def wM : Mod := .mk "WM" [wB] [("mkey", .resolver 2)] [("mkey", .resolver 2)] [] []

/-- Witness module: imports `wM`; local factory `t` injects local `t2`. -/
def wT : Mod := .mk "WT" [wM] [("t", .factory ["t2"] 3), ("t2", .resolver 4)] [] [] []

/-- C4 counterexample: `dupM` has an acyclic local dependency graph and
no imports at all, yet registration fails with the spurious circular
error, because its factory's duplicated inject key corrupts the
topological sort. -/
theorem C4_counterexample :
    Acyclic dupM.providers ∧ dupM.imports = [] ∧
    registerModules ⟨false, false⟩ [dupM] St.init =
      (⟨[], [], [(0, [])], 1, []⟩, .error (.circular "MDup" [])) := by
  refine ⟨acyclic_of_entries dupM.providers (fun k => if k = "b" then 1 else 0)
    (by decide), rfl, by decide⟩

/-- C4 (amended: the module tree is valid — every module has pairwise
distinct nonempty provider keys, duplicate-free local inject lists, an
acyclic local graph, distinct import names, no local key colliding with a
direct import's export key, and names and controllers identify modules):
registration succeeds and the module's scope holds exactly its local
provider keys united with the export keys of its direct imports — export
keys of transitive imports are not re-exported automatically. -/
theorem C4_theorem (ctx : Ctx) (U : List Mod) (m : Mod)
    (hU : TreeValid U) (hm : m ∈ U) :
    ∃ st', registerModules ctx [m] St.init = (st', .ok [(0, m.name)]) ∧
      alookup st'.moduleScopes m.name = some 0 ∧
      ∃ contents, nlookup st'.scopes 0 = some contents ∧
        ∀ k, k ∈ contents.map Prod.fst ↔
          (k ∈ localKeys m ∨ ∃ i ∈ m.imports, k ∈ exportKeys i) := by
  have hInv0 : Inv U (⟨[], [], [(0, [])], 1, []⟩ : St) := by
    refine ⟨?_, ?_, ?_⟩
    · intro pr hpr
      have hpr' : pr = (0, []) := by simpa using hpr
      rw [hpr']
      exact Nat.one_pos
    · intro pr hpr
      simp at hpr
    · intro pr hpr
      simp at hpr
  have hts0 : ∀ t, (some 0 : Option Nat) = some t →
      nlookup (⟨[], [], [(0, [])], 1, []⟩ : St).scopes t = some [] ∧
      t ∉ (⟨[], [], [(0, [])], 1, []⟩ : St).moduleScopes.map Prod.snd := by
    intro t ht
    have ht' : t = 0 := (Option.some.inj ht).symm
    subst ht'
    exact ⟨rfl, by simp⟩
  obtain ⟨st', sid, heq, hInv', hd, halk, hshk, hns, hframe, hsid⟩ :=
    registerMod_ok ctx U hU m.depth m hm (le_refl _)
      (⟨[], [], [(0, [])], 1, []⟩ : St) (some 0) hInv0 hts0
  have hsid0 : sid = 0 := hsid 0 rfl rfl
  subst hsid0
  obtain ⟨contents, hcont, hiff⟩ := hshk
  refine ⟨st', ?_, halk, contents, hcont, hiff⟩
  simp only [registerModules, registerOne, createScope, St.init, List.nil_append,
    Nat.zero_add, heq]

/-- C4 witness: registering `wT` (imports `wM`, which imports `wB`)
succeeds and its scope holds exactly `wT`'s local keys plus `wM`'s export
keys — `wB`'s export `b` is not re-exported transitively. -/
theorem C4_witness :
    ∃ st', registerModules ⟨false, false⟩ [wT] St.init = (st', .ok [(0, "WT")]) ∧
      alookup st'.moduleScopes "WT" = some 0 ∧
      ∃ contents, nlookup st'.scopes 0 = some contents ∧
        ∀ k, k ∈ contents.map Prod.fst ↔
          (k ∈ localKeys wT ∨ ∃ i ∈ wT.imports, k ∈ exportKeys i) := by
  have hU : TreeValid [wB, wM, wT] := by
    refine ⟨?_, ?_, ?_, ?_⟩
    · intro m hm i hi
      simp only [List.mem_cons, List.not_mem_nil, or_false] at hm
      rcases hm with rfl | rfl | rfl
      · simp [wB, Mod.imports] at hi
      · simp only [wM, Mod.imports, List.mem_singleton] at hi
        rw [hi]
        simp
      · simp only [wT, Mod.imports, List.mem_singleton] at hi
        rw [hi]
        simp
    · intro m hm m' hm' hname
      simp only [List.mem_cons, List.not_mem_nil, or_false] at hm hm'
      rcases hm with rfl | rfl | rfl <;> rcases hm' with rfl | rfl | rfl <;>
        first
        | rfl
        | exact absurd hname (by decide)
    · intro m hm m' hm' c hc hc'
      simp only [List.mem_cons, List.not_mem_nil, or_false] at hm
      rcases hm with rfl | rfl | rfl <;> simp [wB, wM, wT, Mod.controllers] at hc
    · intro m hm
      simp only [List.mem_cons, List.not_mem_nil, or_false] at hm
      rcases hm with rfl | rfl | rfl
      · exact ⟨⟨by decide, by decide, by decide, by decide,
          acyclic_of_entries wB.providers (fun _ => 0) (by decide)⟩,
          by decide, by simp [wB, Mod.imports], by decide⟩
      · refine ⟨⟨by decide, by decide, by decide, by decide,
          acyclic_of_entries wM.providers (fun _ => 0) (by decide)⟩,
          by decide, ?_, by decide⟩
        intro i hi
        simp only [wM, Mod.imports, List.mem_singleton] at hi
        rw [hi]
        decide
      · refine ⟨⟨by decide, by decide, by decide, by decide,
          acyclic_of_entries wT.providers (fun k => if k = "t" then 1 else 0)
            (by decide)⟩,
          by decide, ?_, by decide⟩
        intro i hi
        simp only [wT, Mod.imports, List.mem_singleton] at hi
        rw [hi]
        decide
  exact C4_theorem ⟨false, false⟩ [wB, wM, wT] wT hU (by simp)

end AwilixModular
